import Mathlib

/-!
Verification of the FHD (Force Histogram Decomposition) descriptor library.

The development embeds the two source modules over exact rationals:

* module hdist (histogram distances): histograms are lists of rationals;
  the value NaN produced by numpy degenerate divisions (0/0 during min-max
  normalization, 0/0 in the jaccard ratio) is modelled by the value
  Option.none, and numpy's nansum by summing the non-none terms.
  np.linalg.norm for the L2 metric returns the square root of the sum of
  squared differences; a square root of a rational is in general not a
  rational, so the model records the squared value.  The map x to sqrt x
  is strictly monotone and zero-preserving, which is what the theorems
  below rely on wherever the L2 metric appears.

* module fhd (FHD descriptors, matching strategies, descriptor distance):
  a descriptor is a function from index pairs to histograms together with
  its dimensions and force parameters.  Python dictionaries keyed by float
  distances, as used by greedy_shape_matching and optimal_shape_matching,
  are modelled by a left fold that keeps the running minimum and replaces
  it whenever a later key compares less than it or equal to it: the
  dictionary keeps all keys, min iterates over them in insertion order
  with the float comparison k < cur (false whenever either side is NaN),
  and the value stored at the minimal key is the value of its last writer,
  which is exactly what the fold computes (equal keys overwrite, NaN keys
  never compare equal, a NaN running minimum is never displaced).
-/

namespace Spec2Proof

/-- Error taxonomy of the two modules: ValueError raised for malformed
inputs or unrecognized names, ValueError raised for two descriptors of
different size, and NotImplementedError for the CEMD metric. -/
inductive Err where
  | invalidInput
  | notImplemented
  | sizeMismatch
deriving DecidableEq

deriving instance DecidableEq for Except

/-! ### Python float helpers

An Option rational models a Python float that is either a number or NaN.
All comparisons with NaN are false; NaN propagates through arithmetic. -/

/-- Python comparison x < y on possibly-NaN floats. -/
def pyLt : Option ℚ → Option ℚ → Bool
  | some a, some b => decide (a < b)
  | _, _ => false

/-- Python comparison x <= y on possibly-NaN floats. -/
def pyLe : Option ℚ → Option ℚ → Bool
  | some a, some b => decide (a ≤ b)
  | _, _ => false

/-- Python equality x == y on possibly-NaN floats (NaN == NaN is false). -/
def pyEq : Option ℚ → Option ℚ → Bool
  | some a, some b => decide (a = b)
  | _, _ => false

/-- Python addition on possibly-NaN floats: NaN propagates. -/
def pyAdd : Option ℚ → Option ℚ → Option ℚ
  | some a, some b => some (a + b)
  | _, _ => none

/-- Python multiplication of a (non-NaN) scalar with a possibly-NaN float. -/
def pyMul (q : ℚ) : Option ℚ → Option ℚ
  | some a => some (q * a)
  | none => none

/-! ### hdist module -/

namespace hdist

/-- metrics dictionary, entry L1. -/
def metricsL1 : List String := ["L1", "manhattan", "man"]

/-- metrics dictionary, entry L2. -/
def metricsL2 : List String := ["L2", "euclidean", "euc"]

/-- metrics dictionary, entry CHI2. -/
def metricsCHI2 : List String := ["CHI2", "chi2"]

/-- metrics dictionary, entry CEMD. -/
def metricsCEMD : List String := ["CEMD", "cemd"]

/-- metrics dictionary, entry jaccard. -/
def metricsJaccard : List String := ["jaccard"]

/-- Every alias recognized by the metrics dictionary. -/
def allMetricNames : List String :=
  metricsL1 ++ metricsL2 ++ metricsCHI2 ++ metricsCEMD ++ metricsJaccard

/-- The aliases whose metric is actually implemented (CEMD is recognized
but raises NotImplementedError). -/
def implementedMetrics : List String :=
  metricsL1 ++ metricsL2 ++ metricsCHI2 ++ metricsJaccard

/-- a.min() of a 1D numpy array (0 for the empty array, which numpy
rejects; distance validates non-emptiness before using it). -/
def listMin : List ℚ → ℚ
  | [] => 0
  | x :: xs => xs.foldl min x

/-- a.max() of a 1D numpy array. -/
def listMax : List ℚ → ℚ
  | [] => 0
  | x :: xs => xs.foldl max x

/-- The helper called _normalized in the source: (a - a.min()) /
(a.max() - a.min()).  When the histogram has zero range every entry
becomes 0/0, i.e. a vector of NaN, modelled by none. -/
def normalizedHist (a : List ℚ) : Option (List ℚ) :=
  if listMax a = listMin a then none
  else some (a.map (fun x => (x - listMin a) / (listMax a - listMin a)))

/-- np.abs(a - b).sum(). -/
def l1dist (a b : List ℚ) : ℚ :=
  ((a.zip b).map (fun p => |p.1 - p.2|)).sum

/-- The square of np.linalg.norm(a - b); see the module comment for why
the squared value is recorded. -/
def l2sq (a b : List ℚ) : ℚ :=
  ((a.zip b).map (fun p => (p.1 - p.2) ^ 2)).sum

/-- One bucket of the CHI2 sum: (x - y)^2 / (x + y), with none modelling
the NaN produced by 0/0 (numpy then drops it in nansum).  A zero
denominator with x different from y would yield an infinity in numpy;
histogram values are non-negative so that case cannot arise, and the
theorems about CHI2 all assume non-negative entries. -/
def chi2term (x y : ℚ) : Option ℚ :=
  if x + y = 0 ∧ x - y = 0 then none else some ((x - y) ^ 2 / (x + y))

/-- np.nansum(((a - b) ** 2) / (a + b)): the NaN terms are dropped. -/
def chi2dist (a b : List ℚ) : ℚ :=
  (((a.zip b).map (fun p => chi2term p.1 p.2)).filterMap id).sum

/-- 1 - np.minimum(a, b).sum() / np.maximum(a, b).sum(); a zero
denominator gives 0/0 = NaN for equal sums (non-negative entries make the
numerator vanish whenever the denominator does). -/
def jaccardVal (a b : List ℚ) : Option ℚ :=
  if ((a.zip b).map (fun p => max p.1 p.2)).sum = 0 then none
  else some (1 - ((a.zip b).map (fun p => min p.1 p.2)).sum /
    ((a.zip b).map (fun p => max p.1 p.2)).sum)

/-- The metric dispatch of hdist.distance applied to the (possibly
normalized, possibly NaN) operands; only reached for implemented
metrics.  For L1, L2 and jaccard a NaN operand makes the whole result
NaN; for CHI2 np.nansum drops the all-NaN terms and returns 0. -/
def metricVal (na nb : Option (List ℚ)) (metric : String) : Option ℚ :=
  if metric ∈ metricsL1 then
    match na, nb with
    | some x, some y => some (l1dist x y)
    | _, _ => none
  else if metric ∈ metricsL2 then
    match na, nb with
    | some x, some y => some (l2sq x y)
    | _, _ => none
  else if metric ∈ metricsCHI2 then
    some (match na, nb with
          | some x, some y => chi2dist x y
          | _, _ => 0)
  else if metric ∈ metricsJaccard then
    match na, nb with
    | some x, some y => jaccardVal x y
    | _, _ => none
  else none

/-- hdist.distance: validation (1D inputs are inherent to the list
embedding; emptiness and equal size are checked in source order), then
optional min-max normalization, then dispatch on the metric name in the
order of the source's if/elif chain. -/
def distance (a b : List ℚ) (metric : String) (normalized : Bool) :
    Except Err (Option ℚ) :=
  if a.length = 0 ∨ b.length = 0 then .error .invalidInput
  else if a.length ≠ b.length then .error .invalidInput
  else
    let na := if normalized then normalizedHist a else some a
    let nb := if normalized then normalizedHist b else some b
    if metric ∈ metricsL1 then
      .ok (match na, nb with
           | some x, some y => some (l1dist x y)
           | _, _ => none)
    else if metric ∈ metricsL2 then
      .ok (match na, nb with
           | some x, some y => some (l2sq x y)
           | _, _ => none)
    else if metric ∈ metricsCHI2 then
      .ok (some (match na, nb with
                 | some x, some y => chi2dist x y
                 | _, _ => 0))
    else if metric ∈ metricsCEMD then .error .notImplemented
    else if metric ∈ metricsJaccard then
      .ok (match na, nb with
           | some x, some y => jaccardVal x y
           | _, _ => none)
    else .error .invalidInput

/-- The value hdist.distance computes for an implemented metric under the
default argument normalized=True, as used by every call in the fhd
module.  This is only the valid-domain value: it omits distance's
emptiness and equal-length validation (on non-empty equal-length
operands lemma distance_eq_hdistPure below proves the agreement), so
every engine theorem below carries well-formedness and equal
direction-count hypotheses that keep its uses inside that domain. -/
def hdistPure (a b : List ℚ) (metric : String) : Option ℚ :=
  metricVal (normalizedHist a) (normalizedHist b) metric

end hdist

/-! ### fhd module -/

namespace fhd

/-- FHD descriptor: an upper-triangular matrix of histograms (entries
with row > column are never written by the constructor and never read by
the operations) together with its dimensions and force parameters. -/
structure FHD where
  fhistograms : ℕ → ℕ → List ℚ
  N : ℕ
  num_dirs : ℕ
  shape_force : ℚ
  spatial_force : ℚ

/-- Well-formedness of a descriptor: at least one layer, at least one
direction, and every upper-triangular histogram has num_dirs buckets. -/
def FHD.WF (A : FHD) : Prop :=
  0 < A.N ∧ 0 < A.num_dirs ∧
    ∀ i < A.N, ∀ j < A.N, i ≤ j → (A.fhistograms i j).length = A.num_dirs

/-- Non-degeneracy: every upper-triangular histogram has non-zero range,
so min-max normalization never divides by zero. -/
def FHD.Nondeg (A : FHD) : Prop :=
  ∀ i < A.N, ∀ j < A.N, i ≤ j →
    hdist.listMax (A.fhistograms i j) ≠ hdist.listMin (A.fhistograms i j)

/-- np.roll(a, p): circular shift moving each entry p positions to the
right, i.e. result k = a ((k - p) mod n). -/
def npRoll (a : List ℚ) (p : ℕ) : List ℚ :=
  if a.length = 0 then a
  else a.drop (a.length - p % a.length) ++ a.take (a.length - p % a.length)

/-- The running-minimum fold modelling a Python dict keyed by float
distances followed by min over its keys and a lookup: a later element
displaces the current best when its key compares strictly less (Python
min) or equal (same dict key, last write wins); comparisons involving
NaN are all false. -/
def runBest {α : Type} (x0 : Option ℚ × α) (xs : List (Option ℚ × α)) :
    Option ℚ × α :=
  xs.foldl (fun best cur =>
    if pyLt cur.1 best.1 || pyEq cur.1 best.1 then cur else best) x0

/-- min over the non-empty dists dict of one greedy step. -/
def bestChoice (xs : List (Option ℚ × ℕ)) : Option ℚ × ℕ :=
  match xs with
  | [] => (none, 0)
  | x :: rest => runBest x rest

/-- The distances matrix entry: hdist.distance(A i i, B j j, metric)
with the default normalized=True. -/
def dmat (A B : FHD) (metric : String) : ℕ → ℕ → Option ℚ :=
  fun i j => hdist.hdistPure (A.fhistograms i i) (B.fhistograms j j) metric

/-- One iteration of greedy_shape_matching: build the dists dict over
the remaining choices and take the entry with minimal key. -/
def greedyStep (A B : FHD) (metric : String) (i : ℕ) (choices : List ℕ) :
    Option ℚ × ℕ :=
  bestChoice (choices.map (fun j => (dmat A B metric i j, j)))

/-- The loop of greedy_shape_matching: state (accumulated distance,
matching as the list of images of 0, 1, ..., remaining choices). -/
def greedyFold (A B : FHD) (metric : String) : Option ℚ × List ℕ × List ℕ :=
  (List.range A.N).foldl
    (fun st i =>
      let c := greedyStep A B metric i st.2.2
      (pyAdd st.1 c.1, st.2.1 ++ [c.2], st.2.2.erase c.2))
    (some 0, [], List.range A.N)

/-- greedy_shape_matching: size validation, then the greedy loop.  The
returned matching maps each index i to the i-th entry of the list. -/
def greedy_shape_matching (A B : FHD) (metric : String) :
    Except Err (Option ℚ × List ℕ) :=
  if A.N ≠ B.N then .error .sizeMismatch
  else .ok ((greedyFold A B metric).1, (greedyFold A B metric).2.1)

/-- All permutations of a list in the order produced by
itertools.permutations on a duplicate-free input: choose each head in
list order, recurse on the rest.  The fuel argument equals the length of
the list so that the recursion is structural. -/
def permsAux : ℕ → List ℕ → List (List ℕ)
  | 0, _ => [[]]
  | fuel + 1, xs => xs.flatMap (fun x => (permsAux fuel (xs.erase x)).map (fun p => x :: p))

/-- itertools.permutations(range N) enumeration order (lexicographic). -/
def permsLex (xs : List ℕ) : List (List ℕ) :=
  permsAux xs.length xs

/-- Sum of distances of one permutation: for i, j in enumerate(p):
distance += distances[i, j]. -/
def permSum (d : ℕ → ℕ → Option ℚ) (p : List ℕ) : Option ℚ :=
  p.enum.foldl (fun acc ij => pyAdd acc (d ij.1 ij.2)) (some 0)

/-- The permutation search of optimal_shape_matching over a distances
matrix: fill the matchings dict keyed by each permutation's total
distance (equal keys overwritten by later permutations), then return
(min key, its stored permutation); modelled by the running fold. -/
def optimalCore (N : ℕ) (d : ℕ → ℕ → Option ℚ) : Option ℚ × List ℕ :=
  match (permsLex (List.range N)).map (fun p => (permSum d p, p)) with
  | [] => (none, [])
  | x :: rest => runBest x rest

/-- optimal_shape_matching: size validation, the N-by-N distances
matrix, then the exhaustive permutation search. -/
def optimal_shape_matching (A B : FHD) (metric : String) :
    Except Err (Option ℚ × List ℕ) :=
  if A.N ≠ B.N then .error .sizeMismatch
  else .ok (optimalCore A.N (dmat A B metric))

/-- The matchings list of the fhd module. -/
def matchingNames : List String := ["default", "greedy", "optimal"]

/-- The pairs (i, j) with i < j < N in the loop order of the source:
for i in range(N): for j in range(i + 1, N). -/
def pairList (N : ℕ) : List (ℕ × ℕ) :=
  (List.range N).flatMap (fun i => ((List.range N).drop (i + 1)).map (fun j => (i, j)))

/-- Shape distance of the default (identity) strategy. -/
def defaultShape (A B : FHD) (metric : String) : Option ℚ :=
  (List.range A.N).foldl
    (fun acc i => pyAdd acc (dmat A B metric i i)) (some 0)

/-- Spatial distance of the default (identity) strategy. -/
def defaultSpatial (A B : FHD) (metric : String) : Option ℚ :=
  (pairList A.N).foldl
    (fun acc p =>
      pyAdd acc (hdist.hdistPure (A.fhistograms p.1 p.2)
                                 (B.fhistograms p.1 p.2) metric))
    (some 0)

/-- Spatial distance under a matching m (the list of images of
0, 1, ...): fetch B at (m i, m j) when m i <= m j, otherwise swap the
indices to (m j, m i) and circularly rotate the fetched histogram by
B.num_dirs // 2 buckets. -/
def spatialWith (A B : FHD) (metric : String) (m : List ℕ) : Option ℚ :=
  (pairList A.N).foldl
    (fun acc p =>
      pyAdd acc
        (if m.getD p.1 0 ≤ m.getD p.2 0 then
          hdist.hdistPure (A.fhistograms p.1 p.2)
            (B.fhistograms (m.getD p.1 0) (m.getD p.2 0)) metric
        else
          hdist.hdistPure (A.fhistograms p.1 p.2)
            (npRoll (B.fhistograms (m.getD p.2 0) (m.getD p.1 0))
              (B.num_dirs / 2)) metric))
    (some 0)

/-- The greedy branch of fhd.distance: compute both greedy matchings
and retain the one of smaller total shape distance (ties favour the
A-to-B direction). -/
def greedyPick (A B : FHD) (metric : String) : Option ℚ × List ℕ :=
  let mAB := greedyFold A B metric
  let mBA := greedyFold B A metric
  if pyLe mAB.1 mBA.1 then (mAB.1, mAB.2.1) else (mBA.1, mBA.2.1)

/-- fhd.distance: size validation, the alpha default 1 - 2/(N+1) or the
range check on a provided alpha, the matching-strategy check, then the
per-strategy shape and spatial distances combined as
alpha * shape + (1 - alpha) * spatial.  hdist.distance validates the
metric on every call and every strategy calls it at least once when
N > 0, so an unimplemented or unknown metric raises there first; with
N = 0 the sums are empty and no call is made.  hdist.distance also
validates histogram sizes on every call: that error path is not
modelled here (the branches use the valid-domain value hdistPure), so
the theorems about this function assume well-formed descriptors of
equal direction count, the domain on which the size validation always
passes. -/
def distance (A B : FHD) (metric : String) (matching : String)
    (alpha : Option ℚ) : Except Err (Option ℚ) :=
  if A.N ≠ B.N then .error .sizeMismatch
  else
    let N := A.N
    let alphaE : Except Err ℚ :=
      match alpha with
      | none => .ok (1 - 2 / ((N : ℚ) + 1))
      | some a => if 0 ≤ a ∧ a ≤ 1 then .ok a else .error .invalidInput
    match alphaE with
    | .error e => .error e
    | .ok a =>
      if matching ∉ matchingNames then .error .invalidInput
      else if 0 < N ∧ metric ∉ hdist.implementedMetrics then
        (if metric ∈ hdist.metricsCEMD then .error .notImplemented
         else .error .invalidInput)
      else if matching = "default" then
        .ok (pyAdd (pyMul a (defaultShape A B metric))
                   (pyMul (1 - a) (defaultSpatial A B metric)))
      else if matching = "greedy" then
        let pick := greedyPick A B metric
        .ok (pyAdd (pyMul a pick.1)
                   (pyMul (1 - a) (spatialWith A B metric pick.2)))
      else
        let opt := optimalCore N (dmat A B metric)
        .ok (pyAdd (pyMul a opt.1)
                   (pyMul (1 - a) (spatialWith A B metric opt.2)))

/-- The upper-triangular rows f r j for r <= j < N starting at row i, in
the row-major order of np.triu_indices. -/
def rowsFrom (f : ℕ → ℕ → List ℚ) (N i : ℕ) : List (List ℚ) :=
  ((List.range N).drop i).flatMap (fun r => ((List.range N).drop r).map (f r))

/-- FHD.dump: np.savetxt writes the histograms at the upper-triangular
indices, one histogram per row, in row-major order. -/
def FHD.dump (A : FHD) : List (List ℚ) :=
  rowsFrom A.fhistograms A.N 0

/-- Position of entry (i, j), i <= j, in the row-major enumeration of
the upper triangle: full rows 0..i-1 contribute N - r entries each, then
j - i entries of row i. -/
def triuPos (N i j : ℕ) : ℕ :=
  ((List.range i).map (fun r => N - r)).sum + (j - i)

/-- FHD.load: np.loadtxt recovers the flat list of histograms, the
direction count is the row width, and the upper triangle of a freshly
allocated N-by-N container is filled in the same row-major order (the
lower triangle stays uninitialized; the model leaves it empty). -/
def FHD.load (rows : List (List ℚ)) (N : ℕ) (shape_force spatial_force : ℚ) :
    FHD :=
  { fhistograms := fun i j =>
      if i ≤ j ∧ j < N then rows.getD (triuPos N i j) [] else []
    N := N
    num_dirs := (rows.headD []).length
    shape_force := shape_force
    spatial_force := spatial_force }

end fhd

/-- Distinctness of the shape histograms of a descriptor under a metric:
no two distinct layers have shape distance zero. -/
def distinctShapes (A : fhd.FHD) (metric : String) : Prop :=
  ∀ i < A.N, ∀ j < A.N, i ≠ j → fhd.dmat A A metric i j ≠ some 0

instance (A : fhd.FHD) : Decidable A.WF := by
  unfold fhd.FHD.WF
  exact inferInstance

instance (A : fhd.FHD) : Decidable A.Nondeg := by
  unfold fhd.FHD.Nondeg
  exact inferInstance

instance (A : fhd.FHD) (metric : String) : Decidable (distinctShapes A metric) := by
  unfold distinctShapes
  exact inferInstance

/-! ### Spec-side formulations

The following definitions restate formulas the way the specification
words them; the theorems below compare them with the source-derived
definitions above. -/

/-- The CHI2 formula as the specification states it: sum over buckets of
(a_k - b_k)^2 / (a_k + b_k) with the convention that a zero-denominator
bucket contributes zero. -/
def chi2spec (a b : List ℚ) : ℚ :=
  ((a.zip b).map
    (fun p => if p.1 + p.2 = 0 then 0 else (p.1 - p.2) ^ 2 / (p.1 + p.2))).sum

/-- The cross-matching spatial term as the specification states it:
distance(A i j, B (m i) (m j)) when m i <= m j, and
distance(A i j, rotate(B (m j) (m i), D // 2)) when m i > m j. -/
def specSpatialTerm (A B : fhd.FHD) (metric : String) (m : ℕ → ℕ) (i j : ℕ) :
    Option ℚ :=
  if m i ≤ m j then
    hdist.hdistPure (A.fhistograms i j) (B.fhistograms (m i) (m j)) metric
  else
    hdist.hdistPure (A.fhistograms i j)
      (fhd.npRoll (B.fhistograms (m j) (m i)) (B.num_dirs / 2)) metric

/-- Sum of the spec-side spatial terms over all pairs i < j. -/
def specSpatialSum (A B : fhd.FHD) (metric : String) (m : ℕ → ℕ) : Option ℚ :=
  (fhd.pairList A.N).foldl
    (fun acc p => pyAdd acc (specSpatialTerm A B metric m p.1 p.2)) (some 0)

/-- The shape distance produced per the chosen matching strategy. -/
def shapeOf (A B : fhd.FHD) (metric mname : String) : Option ℚ :=
  if mname = "default" then fhd.defaultShape A B metric
  else if mname = "greedy" then (fhd.greedyPick A B metric).1
  else (fhd.optimalCore A.N (fhd.dmat A B metric)).1

/-- The spatial distance produced per the chosen matching strategy. -/
def spatialOf (A B : fhd.FHD) (metric mname : String) : Option ℚ :=
  if mname = "default" then fhd.defaultSpatial A B metric
  else if mname = "greedy" then
    fhd.spatialWith A B metric (fhd.greedyPick A B metric).2
  else fhd.spatialWith A B metric (fhd.optimalCore A.N (fhd.dmat A B metric)).2

/-! ### Concrete descriptors used as test inputs -/

/-- A 2-layer descriptor with 2 directions whose two shape histograms are
identical; its spatial histogram is not invariant under rotation by half
the directions. -/
def dupShapes : fhd.FHD :=
  { fhistograms := fun i j =>
      if i = 0 ∧ j = 0 then [0, 1]
      else if i = 1 ∧ j = 1 then [0, 1]
      else if i = 0 ∧ j = 1 then [0, 1]
      else []
    N := 2
    num_dirs := 2
    shape_force := 0
    spatial_force := 0 }

/-- A 1-layer descriptor whose single histogram is constant, so min-max
normalization divides by zero and produces NaN. -/
def degen1 : fhd.FHD :=
  { fhistograms := fun _ _ => [1, 1]
    N := 1
    num_dirs := 2
    shape_force := 0
    spatial_force := 0 }

/-- A well-formed 2-layer descriptor with distinct shape histograms. -/
def distinct2 : fhd.FHD :=
  { fhistograms := fun i j =>
      if i = 0 ∧ j = 0 then [0, 1]
      else if i = 1 ∧ j = 1 then [1, 0]
      else if i = 0 ∧ j = 1 then [0, 1]
      else []
    N := 2
    num_dirs := 2
    shape_force := 0
    spatial_force := 0 }

/-- A second well-formed 2-layer descriptor with distinct shape
histograms, differing from distinct2. -/
def distinct2b : fhd.FHD :=
  { fhistograms := fun i j =>
      if i = 0 ∧ j = 0 then [1, 0]
      else if i = 1 ∧ j = 1 then [0, 1]
      else if i = 0 ∧ j = 1 then [2, 1]
      else []
    N := 2
    num_dirs := 2
    shape_force := 0
    spatial_force := 0 }

/-! ## Helper lemmas about list minima and maxima -/

namespace hdist

lemma foldl_min_le_init (xs : List ℚ) (x : ℚ) : xs.foldl min x ≤ x := by
  induction xs generalizing x with
  | nil => simp
  | cons y ys ih => exact le_trans (ih (min x y)) (min_le_left x y)

lemma foldl_min_le_mem (xs : List ℚ) (x : ℚ) : ∀ y ∈ xs, xs.foldl min x ≤ y := by
  induction xs generalizing x with
  | nil => simp
  | cons z zs ih =>
    intro y hy
    rcases List.mem_cons.1 hy with h | h
    · subst h
      exact le_trans (foldl_min_le_init zs (min x y)) (min_le_right x y)
    · exact ih (min x z) y h

lemma foldl_min_mem (xs : List ℚ) (x : ℚ) : xs.foldl min x ∈ x :: xs := by
  induction xs generalizing x with
  | nil => simp
  | cons z zs ih =>
    rcases List.mem_cons.1 (ih (min x z)) with h | h
    · rw [List.foldl_cons, h]
      rcases min_choice x z with hc | hc <;> rw [hc] <;> simp
    · simp only [List.foldl_cons]
      exact List.mem_cons_of_mem x (List.mem_cons_of_mem z h)

lemma init_le_foldl_max (xs : List ℚ) (x : ℚ) : x ≤ xs.foldl max x := by
  induction xs generalizing x with
  | nil => simp
  | cons y ys ih => exact le_trans (le_max_left x y) (ih (max x y))

lemma mem_le_foldl_max (xs : List ℚ) (x : ℚ) : ∀ y ∈ xs, y ≤ xs.foldl max x := by
  induction xs generalizing x with
  | nil => simp
  | cons z zs ih =>
    intro y hy
    rcases List.mem_cons.1 hy with h | h
    · subst h
      exact le_trans (le_max_right x y) (init_le_foldl_max zs (max x y))
    · exact ih (max x z) y h

lemma foldl_max_mem (xs : List ℚ) (x : ℚ) : xs.foldl max x ∈ x :: xs := by
  induction xs generalizing x with
  | nil => simp
  | cons z zs ih =>
    rcases List.mem_cons.1 (ih (max x z)) with h | h
    · rw [List.foldl_cons, h]
      rcases max_choice x z with hc | hc <;> rw [hc] <;> simp
    · simp only [List.foldl_cons]
      exact List.mem_cons_of_mem x (List.mem_cons_of_mem z h)

lemma listMin_le {a : List ℚ} : ∀ x ∈ a, listMin a ≤ x := by
  match a with
  | [] => simp
  | x :: xs =>
    intro y hy
    rcases List.mem_cons.1 hy with h | h
    · subst h; exact foldl_min_le_init xs y
    · exact foldl_min_le_mem xs x y h

lemma le_listMax {a : List ℚ} : ∀ x ∈ a, x ≤ listMax a := by
  match a with
  | [] => simp
  | x :: xs =>
    intro y hy
    rcases List.mem_cons.1 hy with h | h
    · subst h; exact init_le_foldl_max xs y
    · exact mem_le_foldl_max xs x y h

lemma listMin_mem {a : List ℚ} (ha : a ≠ []) : listMin a ∈ a := by
  match a with
  | [] => exact absurd rfl ha
  | x :: xs => exact foldl_min_mem xs x

lemma listMax_mem {a : List ℚ} (ha : a ≠ []) : listMax a ∈ a := by
  match a with
  | [] => exact absurd rfl ha
  | x :: xs => exact foldl_max_mem xs x

lemma listMin_lt_listMax {a : List ℚ} (ha : a ≠ [])
    (h : listMax a ≠ listMin a) : listMin a < listMax a :=
  lt_of_le_of_ne (listMin_le _ (listMax_mem ha)) (Ne.symm h)

/-! ## Lemmas about min-max normalization -/

lemma normalizedHist_eq {a : List ℚ} (h : listMax a ≠ listMin a) :
    normalizedHist a =
      some (a.map (fun x => (x - listMin a) / (listMax a - listMin a))) := by
  simp [normalizedHist, h]

lemma normalized_nonneg {a : List ℚ} (ha : a ≠ [])
    (h : listMax a ≠ listMin a) :
    ∀ y ∈ a.map (fun x => (x - listMin a) / (listMax a - listMin a)), 0 ≤ y := by
  intro y hy
  rcases List.mem_map.1 hy with ⟨x, hx, rfl⟩
  have hlt := listMin_lt_listMax ha h
  exact div_nonneg (by linarith [listMin_le x hx]) (by linarith)

lemma normalized_le_one {a : List ℚ} (ha : a ≠ [])
    (h : listMax a ≠ listMin a) :
    ∀ y ∈ a.map (fun x => (x - listMin a) / (listMax a - listMin a)), y ≤ 1 := by
  intro y hy
  rcases List.mem_map.1 hy with ⟨x, hx, rfl⟩
  have hlt := listMin_lt_listMax ha h
  rw [div_le_one (by linarith)]
  linarith [le_listMax x hx]

lemma one_mem_normalized {a : List ℚ} (ha : a ≠ [])
    (h : listMax a ≠ listMin a) :
    (1 : ℚ) ∈ a.map (fun x => (x - listMin a) / (listMax a - listMin a)) := by
  have hlt := listMin_lt_listMax ha h
  refine List.mem_map.2 ⟨listMax a, listMax_mem ha, ?_⟩
  exact div_self (by linarith)

lemma normalized_length (a : List ℚ) :
    (a.map (fun x => (x - listMin a) / (listMax a - listMin a))).length =
      a.length := by
  simp

lemma normalized_ne_nil {a : List ℚ} (ha : a ≠ []) :
    a.map (fun x => (x - listMin a) / (listMax a - listMin a)) ≠ [] := by
  simpa using ha

/-! ## Reflexivity, symmetry and non-negativity of the metric values -/

lemma zip_self {α : Type} (l : List α) : l.zip l = l.map (fun x => (x, x)) := by
  induction l with
  | nil => rfl
  | cons x xs ih => simp [ih]

lemma l1dist_self (l : List ℚ) : l1dist l l = 0 := by
  rw [l1dist]
  apply List.sum_eq_zero
  intro q hq
  rw [zip_self, List.map_map] at hq
  rcases List.mem_map.1 hq with ⟨x, _, rfl⟩
  simp

lemma l2sq_self (l : List ℚ) : l2sq l l = 0 := by
  rw [l2sq]
  apply List.sum_eq_zero
  intro q hq
  rw [zip_self, List.map_map] at hq
  rcases List.mem_map.1 hq with ⟨x, _, rfl⟩
  simp

lemma chi2dist_self (l : List ℚ) : chi2dist l l = 0 := by
  rw [chi2dist]
  apply List.sum_eq_zero
  intro q hq
  rcases List.mem_filterMap.1 hq with ⟨o, ho, hoq⟩
  rcases List.mem_map.1 ho with ⟨p, hp, rfl⟩
  rw [zip_self] at hp
  rcases List.mem_map.1 hp with ⟨x, _, rfl⟩
  rw [chi2term] at hoq
  by_cases hx : x + x = 0 ∧ x - x = 0
  · rw [if_pos hx] at hoq; cases hoq
  · rw [if_neg hx] at hoq
    simp at hoq
    simp [← hoq]

lemma jaccard_sum_self (l : List ℚ) (f : ℚ → ℚ → ℚ) (hf : ∀ x, f x x = x) :
    ((l.zip l).map (fun p => f p.1 p.2)).sum = l.sum := by
  rw [zip_self, List.map_map]
  have h1 : List.map ((fun p : ℚ × ℚ => f p.1 p.2) ∘ fun x => (x, x)) l
      = List.map (fun x => x) l :=
    List.map_congr_left (fun x _ => hf x)
  rw [h1]
  simp

lemma jaccardVal_self {l : List ℚ} (hsum : l.sum ≠ 0) :
    jaccardVal l l = some 0 := by
  rw [jaccardVal]
  simp only [jaccard_sum_self l max (fun x => max_self x),
    jaccard_sum_self l min (fun x => min_self x)]
  rw [if_neg hsum]
  rw [div_self hsum]
  simp

lemma zip_map_comm {β : Type} (f : ℚ → ℚ → β) (hf : ∀ x y, f x y = f y x) :
    ∀ a b : List ℚ,
      (a.zip b).map (fun p => f p.1 p.2) = (b.zip a).map (fun p => f p.1 p.2) := by
  intro a
  induction a with
  | nil => intro b; cases b <;> simp
  | cons x xs ih =>
    intro b
    cases b with
    | nil => simp
    | cons y ys => simp [hf x y, ih ys]

lemma l1dist_comm (a b : List ℚ) : l1dist a b = l1dist b a := by
  rw [l1dist, l1dist, zip_map_comm (fun x y => |x - y|) (fun x y => abs_sub_comm x y)]

lemma l2sq_comm (a b : List ℚ) : l2sq a b = l2sq b a := by
  rw [l2sq, l2sq, zip_map_comm (fun x y => (x - y) ^ 2) (fun x y => by ring)]

lemma chi2term_comm (x y : ℚ) : chi2term x y = chi2term y x := by
  unfold chi2term
  by_cases h : x + y = 0 ∧ x - y = 0
  · rw [if_pos h, if_pos ⟨by linarith [h.1], by linarith [h.2]⟩]
  · rw [if_neg h, if_neg (fun h2 => h ⟨by linarith [h2.1], by linarith [h2.2]⟩)]
    have hxy : (x - y) ^ 2 = (y - x) ^ 2 := by ring
    rw [hxy, add_comm x y]

lemma chi2dist_comm (a b : List ℚ) : chi2dist a b = chi2dist b a := by
  rw [chi2dist, chi2dist, zip_map_comm chi2term chi2term_comm]

lemma jaccardVal_comm (a b : List ℚ) : jaccardVal a b = jaccardVal b a := by
  rw [jaccardVal, jaccardVal]
  simp only [zip_map_comm (fun x y => max x y) (fun x y => max_comm x y) a b,
    zip_map_comm (fun x y => min x y) (fun x y => min_comm x y) a b]

lemma metricVal_comm (na nb : Option (List ℚ)) (metric : String) :
    metricVal na nb metric = metricVal nb na metric := by
  unfold metricVal
  cases na <;> cases nb <;> split_ifs <;>
    simp [l1dist_comm, l2sq_comm, chi2dist_comm, jaccardVal_comm]

lemma hdistPure_comm (a b : List ℚ) (metric : String) :
    hdistPure a b metric = hdistPure b a metric := by
  rw [hdistPure, hdistPure, metricVal_comm]

/-- Membership in implementedMetrics splits into the four families. -/
lemma implemented_cases {metric : String} (hm : metric ∈ implementedMetrics) :
    metric ∈ metricsL1 ∨ metric ∈ metricsL2 ∨ metric ∈ metricsCHI2 ∨
      metric ∈ metricsJaccard := by
  simpa [implementedMetrics, List.mem_append, or_assoc] using hm

lemma notL1_of_L2 {m : String} (h : m ∈ metricsL2) : m ∉ metricsL1 := by
  fin_cases h <;> decide

lemma notL1_of_CHI2 {m : String} (h : m ∈ metricsCHI2) : m ∉ metricsL1 := by
  fin_cases h <;> decide

lemma notL2_of_CHI2 {m : String} (h : m ∈ metricsCHI2) : m ∉ metricsL2 := by
  fin_cases h <;> decide

lemma notL1_of_jaccard {m : String} (h : m ∈ metricsJaccard) : m ∉ metricsL1 := by
  fin_cases h <;> decide

lemma notL2_of_jaccard {m : String} (h : m ∈ metricsJaccard) : m ∉ metricsL2 := by
  fin_cases h <;> decide

lemma notCHI2_of_jaccard {m : String} (h : m ∈ metricsJaccard) :
    m ∉ metricsCHI2 := by
  fin_cases h <;> decide

/-- The sum of a min-max normalized non-degenerate histogram is at least
one (it contains the value 1 and all entries are non-negative). -/
lemma normalized_sum_pos {a : List ℚ} (ha : a ≠ [])
    (h : listMax a ≠ listMin a) :
    0 < (a.map (fun x => (x - listMin a) / (listMax a - listMin a))).sum := by
  have h1 := one_mem_normalized ha h
  have hnn := normalized_nonneg ha h
  have := List.single_le_sum hnn 1 h1
  linarith

/-- Reflexivity of the implemented metric values on a non-degenerate
histogram: hdist.distance(a, a, metric) is exactly zero. -/
lemma hdistPure_self {a : List ℚ} (ha : a ≠ [])
    (hnd : listMax a ≠ listMin a) {metric : String}
    (hm : metric ∈ implementedMetrics) :
    hdistPure a a metric = some 0 := by
  rw [hdistPure, normalizedHist_eq hnd, metricVal]
  rcases implemented_cases hm with h | h | h | h
  · rw [if_pos h, l1dist_self]
  · rw [if_neg (notL1_of_L2 h), if_pos h, l2sq_self]
  · rw [if_neg (notL1_of_CHI2 h), if_neg (notL2_of_CHI2 h), if_pos h,
      chi2dist_self]
  · rw [if_neg (notL1_of_jaccard h), if_neg (notL2_of_jaccard h),
      if_neg (notCHI2_of_jaccard h), if_pos h,
      jaccardVal_self (ne_of_gt (normalized_sum_pos ha hnd))]

/-- Non-negativity of the CHI2 sum on non-negative histograms. -/
lemma chi2dist_nonneg {a b : List ℚ} (hna : ∀ x ∈ a, 0 ≤ x)
    (hnb : ∀ x ∈ b, 0 ≤ x) : 0 ≤ chi2dist a b := by
  rw [chi2dist]
  apply List.sum_nonneg
  intro q hq
  rcases List.mem_filterMap.1 hq with ⟨o, ho, hoq⟩
  rcases List.mem_map.1 ho with ⟨p, hp, rfl⟩
  have hpa : 0 ≤ p.1 := hna _ (List.of_mem_zip hp).1
  have hpb : 0 ≤ p.2 := hnb _ (List.of_mem_zip hp).2
  rw [chi2term] at hoq
  by_cases hc : p.1 + p.2 = 0 ∧ p.1 - p.2 = 0
  · rw [if_pos hc] at hoq; cases hoq
  · rw [if_neg hc] at hoq
    have hne : p.1 + p.2 ≠ 0 := by
      intro h0
      exact hc ⟨h0, by nlinarith⟩
    have hpos : 0 < p.1 + p.2 := lt_of_le_of_ne (by linarith) (Ne.symm hne)
    have : (0 : ℚ) ≤ (p.1 - p.2) ^ 2 / (p.1 + p.2) :=
      div_nonneg (sq_nonneg _) (le_of_lt hpos)
    simp only [id_eq, Option.some.injEq] at hoq
    rw [← hoq]
    exact this

/-- On two histograms with entries bounded in the unit interval, with
both containing the value 1 and of equal length, the jaccard value is a
defined non-negative rational. -/
lemma jaccardVal_bounds {a b : List ℚ} (hna : ∀ x ∈ a, 0 ≤ x)
    (hnb : ∀ x ∈ b, 0 ≤ x) (h1a : (1 : ℚ) ∈ a)
    (hlen : a.length = b.length) :
    ∃ q, jaccardVal a b = some q ∧ 0 ≤ q := by
  rcases List.mem_iff_getElem.1 h1a with ⟨k, hk, hval⟩
  have hkz : k < (a.zip b).length := by
    rw [List.length_zip]
    omega
  have hkb : k < b.length := by omega
  have hz : (a.zip b)[k] = (a[k], b[k]) := List.getElem_zip ..
  have hmem : ((a.zip b)[k]) ∈ a.zip b := List.getElem_mem hkz
  have hmax_nonneg : ∀ q ∈ (a.zip b).map (fun p => max p.1 p.2), 0 ≤ q := by
    intro q hq
    rcases List.mem_map.1 hq with ⟨p, hp, rfl⟩
    exact le_trans (hna _ (List.of_mem_zip hp).1) (le_max_left _ _)
  have hmx1 : (1 : ℚ) ≤ ((a.zip b).map (fun p => max p.1 p.2)).sum := by
    have hmem' : max ((a.zip b)[k]).1 ((a.zip b)[k]).2 ∈
        (a.zip b).map (fun p => max p.1 p.2) :=
      List.mem_map.2 ⟨_, hmem, rfl⟩
    have hle := List.single_le_sum hmax_nonneg _ hmem'
    have : (1 : ℚ) ≤ max ((a.zip b)[k]).1 ((a.zip b)[k]).2 := by
      rw [hz, hval]
      exact le_max_left 1 _
    linarith
  have hmxpos : (0 : ℚ) < ((a.zip b).map (fun p => max p.1 p.2)).sum := by
    linarith
  have hmn_le : ((a.zip b).map (fun p => min p.1 p.2)).sum ≤
      ((a.zip b).map (fun p => max p.1 p.2)).sum := by
    apply List.sum_le_sum
    intro p _
    exact min_le_max
  refine ⟨1 - ((a.zip b).map (fun p => min p.1 p.2)).sum /
      ((a.zip b).map (fun p => max p.1 p.2)).sum, ?_, ?_⟩
  · rw [jaccardVal, if_neg (ne_of_gt hmxpos)]
  · have : ((a.zip b).map (fun p => min p.1 p.2)).sum /
        ((a.zip b).map (fun p => max p.1 p.2)).sum ≤ 1 :=
      (div_le_one hmxpos).2 hmn_le
    linarith

/-- For an implemented metric and non-degenerate histograms of equal
length, hdist.distance returns a defined non-negative value. -/
lemma hdistPure_some_nonneg {a b : List ℚ} (ha : a ≠ []) (hb : b ≠ [])
    (hnda : listMax a ≠ listMin a) (hndb : listMax b ≠ listMin b)
    (hlen : a.length = b.length) {metric : String}
    (hm : metric ∈ implementedMetrics) :
    ∃ q, hdistPure a b metric = some q ∧ 0 ≤ q := by
  rw [hdistPure, normalizedHist_eq hnda, normalizedHist_eq hndb, metricVal]
  rcases implemented_cases hm with h | h | h | h
  · rw [if_pos h]
    refine ⟨_, rfl, ?_⟩
    apply List.sum_nonneg
    intro q hq
    rcases List.mem_map.1 hq with ⟨p, _, rfl⟩
    exact abs_nonneg _
  · rw [if_neg (notL1_of_L2 h), if_pos h]
    refine ⟨_, rfl, ?_⟩
    apply List.sum_nonneg
    intro q hq
    rcases List.mem_map.1 hq with ⟨p, _, rfl⟩
    exact sq_nonneg _
  · rw [if_neg (notL1_of_CHI2 h), if_neg (notL2_of_CHI2 h), if_pos h]
    exact ⟨_, rfl, chi2dist_nonneg (normalized_nonneg ha hnda)
      (normalized_nonneg hb hndb)⟩
  · rw [if_neg (notL1_of_jaccard h), if_neg (notL2_of_jaccard h),
      if_neg (notCHI2_of_jaccard h), if_pos h]
    exact jaccardVal_bounds (normalized_nonneg ha hnda)
      (normalized_nonneg hb hndb) (one_mem_normalized ha hnda)
      (by simp [hlen])

/-- On valid inputs and an implemented metric, hdist.distance with
normalization agrees with the value hdistPure. -/
lemma distance_eq_hdistPure (a b : List ℚ) (metric : String) (ha : a ≠ [])
    (hb : b ≠ []) (hlen : a.length = b.length)
    (hm : metric ∈ implementedMetrics) :
    distance a b metric true = .ok (hdistPure a b metric) := by
  rw [distance]
  rw [if_neg (by simp [ha, hb])]
  rw [if_neg (by simp [hlen])]
  rw [hdistPure, metricVal.eq_def]
  simp only [if_true]
  rcases implemented_cases hm with h | h | h | h
  · rw [if_pos h, if_pos h]
  · rw [if_neg (notL1_of_L2 h), if_neg (notL1_of_L2 h), if_pos h, if_pos h]
  · rw [if_neg (notL1_of_CHI2 h), if_neg (notL1_of_CHI2 h),
      if_neg (notL2_of_CHI2 h), if_neg (notL2_of_CHI2 h), if_pos h, if_pos h]
  · have hne : metric ∉ metricsCEMD := by
      fin_cases h <;> decide
    rw [if_neg (notL1_of_jaccard h), if_neg (notL1_of_jaccard h),
      if_neg (notL2_of_jaccard h), if_neg (notL2_of_jaccard h),
      if_neg (notCHI2_of_jaccard h), if_neg (notCHI2_of_jaccard h),
      if_neg hne, if_pos h, if_pos h]

/-- The CHI2 accumulation with the NaN-dropping nansum agrees, on
non-negative inputs, with the sum that treats zero-denominator buckets
as zero contributions. -/
lemma chi2_filter_eq_spec :
    ∀ l : List (ℚ × ℚ), (∀ p ∈ l, 0 ≤ p.1 ∧ 0 ≤ p.2) →
      ((l.map (fun p => chi2term p.1 p.2)).filterMap id).sum =
        (l.map (fun p =>
          if p.1 + p.2 = 0 then 0 else (p.1 - p.2) ^ 2 / (p.1 + p.2))).sum := by
  intro l
  induction l with
  | nil => intro _; rfl
  | cons p l ih =>
    intro hl
    have hp := hl p (List.mem_cons_self p l)
    have htail := fun q hq => hl q (List.mem_cons_of_mem p hq)
    rw [List.map_cons, List.map_cons, List.sum_cons]
    by_cases hc : p.1 + p.2 = 0
    · have h1 : p.1 = 0 := by
        rcases hp with ⟨h01, h02⟩
        linarith
      have h2 : p.2 = 0 := by
        rcases hp with ⟨h01, h02⟩
        linarith
      have hterm : chi2term p.1 p.2 = none := by
        rw [chi2term, if_pos ⟨hc, by rw [h1, h2]; ring⟩]
      rw [hterm, List.filterMap_cons_none rfl, if_pos hc, zero_add, ih htail]
    · have hterm : chi2term p.1 p.2 = some ((p.1 - p.2) ^ 2 / (p.1 + p.2)) := by
        rw [chi2term, if_neg (fun hand => hc hand.1)]
      have hid : (id (some ((p.1 - p.2) ^ 2 / (p.1 + p.2))) : Option ℚ) =
          some ((p.1 - p.2) ^ 2 / (p.1 + p.2)) := rfl
      rw [hterm, List.filterMap_cons_some hid, List.sum_cons, if_neg hc,
        ih htail]

end hdist

/-! ## Helper lemmas for the matching machinery -/

namespace fhd

lemma runBest_nil {α : Type} (x0 : Option ℚ × α) : runBest x0 [] = x0 := rfl

lemma runBest_cons {α : Type} (x0 y : Option ℚ × α) (ys) :
    runBest x0 (y :: ys) =
      runBest (if pyLt y.1 x0.1 || pyEq y.1 x0.1 then y else x0) ys := rfl

lemma runBest_concat {α : Type} (x0 z : Option ℚ × α) (xs) :
    runBest x0 (xs ++ [z]) =
      (if pyLt z.1 (runBest x0 xs).1 || pyEq z.1 (runBest x0 xs).1 then z
       else runBest x0 xs) := by
  rw [runBest, List.foldl_append]
  rfl

lemma runBest_mem {α : Type} (x0 : Option ℚ × α) (xs) :
    runBest x0 xs ∈ x0 :: xs := by
  induction xs generalizing x0 with
  | nil => simp [runBest_nil]
  | cons y ys ih =>
    rw [runBest_cons]
    rcases List.mem_cons.1 (ih (if pyLt y.1 x0.1 || pyEq y.1 x0.1 then y else x0))
      with h | h
    · rw [h]
      split_ifs <;> simp
    · exact List.mem_cons_of_mem _ (List.mem_cons_of_mem _ h)

lemma runBest_stay {α : Type} (x0 : Option ℚ × α) (xs)
    (h : ∀ y ∈ xs, (pyLt y.1 x0.1 || pyEq y.1 x0.1) = true → y = x0) :
    runBest x0 xs = x0 := by
  induction xs with
  | nil => exact runBest_nil x0
  | cons y ys ih =>
    rw [runBest_cons]
    by_cases hc : (pyLt y.1 x0.1 || pyEq y.1 x0.1) = true
    · rw [if_pos hc, h y (List.mem_cons_self y ys) hc]
      exact ih (fun z hz => h z (List.mem_cons_of_mem y hz))
    · rw [if_neg hc]
      exact ih (fun z hz => h z (List.mem_cons_of_mem y hz))

lemma pyLt_some_some (a b : ℚ) : pyLt (some a) (some b) = decide (a < b) := rfl

lemma pyEq_some_some (a b : ℚ) : pyEq (some a) (some b) = decide (a = b) := rfl

lemma pyLe_some_some (a b : ℚ) : pyLe (some a) (some b) = decide (a ≤ b) := rfl

lemma pyLe_true_iff (a b : ℚ) : pyLe (some a) (some b) = true ↔ a ≤ b := by
  simp [pyLe]

/-- The running fold computes a defined key below the initial key and
below every (defined) key of the list. -/
lemma runBest_min {α : Type} :
    ∀ (xs : List (Option ℚ × α)) (x0 : Option ℚ × α) (q0 : ℚ),
      x0.1 = some q0 → (∀ y ∈ xs, ∃ q, y.1 = some q) →
      ∃ r, (runBest x0 xs).1 = some r ∧ r ≤ q0 ∧
        ∀ y ∈ xs, ∀ q, y.1 = some q → r ≤ q := by
  intro xs
  induction xs with
  | nil =>
    intro x0 q0 h0 _
    exact ⟨q0, by rw [runBest_nil, h0], le_refl q0, by simp⟩
  | cons y ys ih =>
    intro x0 q0 h0 hxs
    rcases hxs y (List.mem_cons_self y ys) with ⟨qy, hqy⟩
    rw [runBest_cons]
    by_cases hc : (pyLt y.1 x0.1 || pyEq y.1 x0.1) = true
    · have hy1 : qy ≤ q0 := by
        rcases Bool.or_eq_true_iff.1 hc with h | h
        · rw [hqy, h0, pyLt_some_some] at h
          exact le_of_lt (of_decide_eq_true h)
        · rw [hqy, h0, pyEq_some_some] at h
          exact le_of_eq (of_decide_eq_true h)
      rw [if_pos hc]
      rcases ih y qy hqy (fun z hz => hxs z (List.mem_cons_of_mem y hz))
        with ⟨r, hr, hrq, hall⟩
      exact ⟨r, hr, le_trans hrq hy1, fun z hz q hzq => by
        rcases List.mem_cons.1 hz with h | h
        · rw [h] at hzq
          rw [hzq] at hqy
          cases hqy
          exact hrq
        · exact hall z h q hzq⟩
    · have hy1 : q0 ≤ qy := by
        rw [hqy, h0, pyLt_some_some, pyEq_some_some] at hc
        have h1 : ¬ qy < q0 := by
          intro hlt
          exact hc (by simp [hlt])
        have h2 : qy ≠ q0 := by
          intro heq
          exact hc (by simp [heq])
        rcases lt_or_ge qy q0 with h | h
        · exact absurd h h1
        · exact h
      rw [if_neg hc]
      rcases ih x0 q0 h0 (fun z hz => hxs z (List.mem_cons_of_mem y hz))
        with ⟨r, hr, hrq, hall⟩
      exact ⟨r, hr, hrq, fun z hz q hzq => by
        rcases List.mem_cons.1 hz with h | h
        · rw [h] at hzq
          rw [hzq] at hqy
          cases hqy
          exact le_trans hrq hy1
        · exact hall z h q hzq⟩

/-- The running fold returns the last element whose key equals the
minimal key, matching the last-write-wins overwrite of a Python dict
followed by min over its keys. -/
lemma runBest_lastAchiever {α : Type} :
    ∀ (xs : List (Option ℚ × α)) (x0 : Option ℚ × α) (q0 : ℚ),
      x0.1 = some q0 → (∀ y ∈ xs, ∃ q, y.1 = some q) →
      runBest x0 xs =
        ((x0 :: xs).filter (fun y => pyEq y.1 (runBest x0 xs).1)).getLastD x0 := by
  intro xs
  induction xs using List.reverseRecOn with
  | nil =>
    intro x0 q0 h0 _
    rw [runBest_nil]
    simp [pyEq, h0]
  | append_singleton ys z ih =>
    intro x0 q0 h0 hxs
    have hys : ∀ y ∈ ys, ∃ q, y.1 = some q := fun y hy =>
      hxs y (List.mem_append_left _ hy)
    rcases hxs z (List.mem_append_right _ (List.mem_cons_self z [])) with ⟨qz, hqz⟩
    rw [runBest_concat]
    by_cases hc : (pyLt z.1 (runBest x0 ys).1 || pyEq z.1 (runBest x0 ys).1) = true
    · rw [if_pos hc]
      have hfz : pyEq z.1 z.1 = true := by
        rw [hqz, pyEq_some_some]
        simp
      rw [show x0 :: (ys ++ [z]) = (x0 :: ys) ++ [z] by simp]
      rw [List.filter_append]
      have hfil : List.filter (fun y => pyEq y.1 z.1) [z] = [z] := by
        simp [hfz]
      rw [hfil, List.getLastD_concat]
    · rw [if_neg hc]
      have hfz : pyEq z.1 (runBest x0 ys).1 = false := by
        rcases Bool.or_eq_false_iff.1 (Bool.eq_false_iff.2 hc) with ⟨_, h2⟩
        exact h2
      rw [show x0 :: (ys ++ [z]) = (x0 :: ys) ++ [z] by simp]
      rw [List.filter_append]
      have hfil : List.filter (fun y => pyEq y.1 (runBest x0 ys).1) [z] = [] := by
        simp [hfz]
      rw [hfil, List.append_nil]
      exact ih x0 q0 h0 hys

/-! ### Lexicographic permutations -/

lemma mem_permsAux :
    ∀ (fuel : ℕ) (xs : List ℕ) (p : List ℕ), xs.length = fuel →
      (p ∈ permsAux fuel xs ↔ p.Perm xs) := by
  intro fuel
  induction fuel with
  | zero =>
    intro xs p hlen
    have hxs : xs = [] := List.length_eq_zero.1 hlen
    subst hxs
    simp [permsAux, List.perm_nil]
  | succ fuel ih =>
    intro xs p hlen
    rw [permsAux]
    simp only [List.mem_flatMap, List.mem_map]
    constructor
    · rintro ⟨x, hx, q, hq, rfl⟩
      have hlen' : (xs.erase x).length = fuel := by
        rw [List.length_erase_of_mem hx, hlen]
        omega
      exact List.cons_perm_iff_perm_erase.2 ⟨hx, (ih _ q hlen').1 hq⟩
    · intro hp
      cases p with
      | nil =>
        have := hp.length_eq
        rw [hlen] at this
        cases this
      | cons y q =>
        rcases List.cons_perm_iff_perm_erase.1 hp with ⟨hy, hq⟩
        have hlen' : (xs.erase y).length = fuel := by
          rw [List.length_erase_of_mem hy, hlen]
          omega
        exact ⟨y, hy, q, (ih _ q hlen').2 hq, rfl⟩

lemma mem_permsLex (xs p : List ℕ) : p ∈ permsLex xs ↔ p.Perm xs :=
  mem_permsAux xs.length xs p rfl

/-- The first permutation enumerated is the list itself. -/
lemma permsLex_head : ∀ xs : List ℕ, ∃ t, permsLex xs = xs :: t := by
  intro xs
  induction xs with
  | nil => exact ⟨[], rfl⟩
  | cons x ys ih =>
    rcases ih with ⟨t, ht⟩
    rw [permsLex] at ht ⊢
    refine ⟨t.map (fun p => x :: p) ++
      ys.flatMap (fun y => (permsAux ys.length ((x :: ys).erase y)).map
        (fun p => y :: p)), ?_⟩
    rw [List.length_cons, permsAux, List.flatMap_cons, List.erase_cons_head, ht]
    simp

/-! ### Sums of Option rationals -/

lemma foldl_pyAdd_map {α : Type} :
    ∀ (l : List α) (g : α → Option ℚ) (f : α → ℚ),
      (∀ x ∈ l, g x = some (f x)) → ∀ c : ℚ,
      l.foldl (fun acc x => pyAdd acc (g x)) (some c) = some (c + (l.map f).sum) := by
  intro l
  induction l with
  | nil => intro g f _ c; simp
  | cons x xs ih =>
    intro g f h c
    rw [List.foldl_cons, h x (List.mem_cons_self x xs), pyAdd]
    rw [ih g f (fun z hz => h z (List.mem_cons_of_mem x hz)) (c + f x)]
    simp [add_assoc]

lemma foldl_pyAdd_zero {α : Type} (l : List α) (g : α → Option ℚ)
    (h : ∀ x ∈ l, g x = some 0) (c : ℚ) :
    l.foldl (fun acc x => pyAdd acc (g x)) (some c) = some c := by
  rw [foldl_pyAdd_map l g (fun _ => 0) h c]
  simp

lemma permSum_of_some (d : ℕ → ℕ → Option ℚ) (p : List ℕ) (f : ℕ → ℕ → ℚ)
    (h : ∀ ij ∈ p.enum, d ij.1 ij.2 = some (f ij.1 ij.2)) :
    permSum d p = some ((p.enum.map (fun ij => f ij.1 ij.2)).sum) := by
  rw [permSum, foldl_pyAdd_map p.enum (fun ij => d ij.1 ij.2)
    (fun ij => f ij.1 ij.2) h 0]
  simp

lemma permSum_concat (d : ℕ → ℕ → Option ℚ) (p : List ℕ) (j : ℕ) :
    permSum d (p ++ [j]) = pyAdd (permSum d p) (d p.length j) := by
  rw [permSum, permSum, List.enum_eq_zip_range, List.enum_eq_zip_range,
    List.length_append, List.length_cons, List.length_nil]
  rw [show p.length + (0 + 1) = p.length + 1 by omega, List.range_succ,
    List.zip_append (by simp), List.foldl_append]
  rfl

/-! ### Ranges and index pairs -/

lemma range_drop_cons {n N : ℕ} (h : n < N) :
    (List.range N).drop n = n :: (List.range N).drop (n + 1) := by
  rw [List.drop_eq_getElem_cons (by simpa using h)]
  simp

lemma getD_range {i N : ℕ} (h : i < N) : (List.range N).getD i 0 = i := by
  rw [List.getD_eq_getElem _ _ (by simpa using h)]
  simp

lemma mem_range_drop {j k N : ℕ} :
    j ∈ (List.range N).drop k ↔ k ≤ j ∧ j < N := by
  constructor
  · intro h
    have hj : j ∈ List.range N := List.mem_of_mem_drop h
    have hlt : j < N := List.mem_range.1 hj
    rcases List.mem_iff_getElem.1 h with ⟨i, hi, hij⟩
    rw [List.getElem_drop] at hij
    rw [List.getElem_range] at hij
    omega
  · intro ⟨h1, h2⟩
    have : ∀ m, m ≤ N → ∀ j, N - m ≤ j → j < N →
        j ∈ (List.range N).drop (N - m) := by
      intro m
      induction m with
      | zero => intro _ j h1 h2; omega
      | succ m ihm =>
        intro hm j hj1 hj2
        rw [range_drop_cons (by omega)]
        by_cases hej : j = N - (m + 1)
        · rw [hej]; exact List.mem_cons_self _ _
        · refine List.mem_cons_of_mem _ ?_
          have : N - (m + 1) + 1 = N - m := by omega
          rw [this]
          exact ihm (by omega) j (by omega) hj2
    have hres := this (N - k) (by omega) j (by omega) h2
    rw [show N - (N - k) = k by omega] at hres
    exact hres

lemma mem_pairList {p : ℕ × ℕ} {N : ℕ} :
    p ∈ pairList N ↔ p.1 < p.2 ∧ p.2 < N := by
  rw [pairList]
  simp only [List.mem_flatMap, List.mem_map]
  constructor
  · rintro ⟨i, hi, j, hj, rfl⟩
    rcases mem_range_drop.1 hj with ⟨h1, h2⟩
    exact ⟨by omega, h2⟩
  · intro ⟨h1, h2⟩
    exact ⟨p.1, List.mem_range.2 (by omega), p.2,
      mem_range_drop.2 ⟨by omega, h2⟩, rfl⟩

/-! ### Enumeration membership -/

lemma mem_enum_iff_nat {p : List ℕ} {ij : ℕ × ℕ} :
    ij ∈ p.enum ↔ ∃ h : ij.1 < p.length, p.get ⟨ij.1, h⟩ = ij.2 := by
  rw [List.enum_eq_zip_range]
  constructor
  · intro h
    rcases List.mem_iff_getElem.1 h with ⟨k, hk, hij⟩
    have hk2 : k < p.length := by
      simpa using hk
    rw [List.getElem_zip] at hij
    have h1 : ij.1 = k := by
      rw [← hij]
      simp
    subst h1
    refine ⟨hk2, ?_⟩
    have h2 := congrArg Prod.snd hij
    rw [List.get_eq_getElem]
    simpa using h2
  · rintro ⟨h, hval⟩
    apply List.mem_iff_getElem.2
    refine ⟨ij.1, by simpa using h, ?_⟩
    rw [List.getElem_zip]
    have : p[ij.1] = ij.2 := by
      rw [← hval]
      simp [List.get_eq_getElem]
    rw [this]
    simp

lemma mem_enum_of_lt {p : List ℕ} {i : ℕ} (h : i < p.length) :
    (i, p.getD i 0) ∈ p.enum := by
  refine mem_enum_iff_nat.2 ⟨h, ?_⟩
  rw [List.get_eq_getElem, List.getD_eq_getElem _ _ h]

/-! ### Well-formedness plumbing -/

lemma hist_ne_nil {A : FHD} (hWF : A.WF) {i j : ℕ} (hi : i < A.N)
    (hj : j < A.N) (hij : i ≤ j) : A.fhistograms i j ≠ [] := by
  intro h
  have h1 := hWF.2.2 i hi j hj hij
  have h2 := hWF.2.1
  rw [h] at h1
  simp at h1
  omega

/-- A matrix entry of the shape-distance matrix is a defined
non-negative value for well-formed non-degenerate descriptors of equal
direction count. -/
lemma dmat_some_nonneg {A B : FHD} (hWFA : A.WF) (hWFB : B.WF)
    (hndA : A.Nondeg) (hndB : B.Nondeg) (hD : A.num_dirs = B.num_dirs)
    {metric : String} (hm : metric ∈ hdist.implementedMetrics) {i j : ℕ}
    (hi : i < A.N) (hj : j < B.N) :
    ∃ q, dmat A B metric i j = some q ∧ 0 ≤ q := by
  apply hdist.hdistPure_some_nonneg (hist_ne_nil hWFA hi hi (le_refl i))
    (hist_ne_nil hWFB hj hj (le_refl j)) (hndA i hi i hi (le_refl i))
    (hndB j hj j hj (le_refl j)) ?_ hm
  rw [hWFA.2.2 i hi i hi (le_refl i), hWFB.2.2 j hj j hj (le_refl j), hD]

/-- The diagonal of the self shape-distance matrix is exactly zero. -/
lemma dmat_self_diag {A : FHD} (hWF : A.WF) (hnd : A.Nondeg)
    {metric : String} (hm : metric ∈ hdist.implementedMetrics) {i : ℕ}
    (hi : i < A.N) : dmat A A metric i i = some 0 :=
  hdist.hdistPure_self (hist_ne_nil hWF hi hi (le_refl i))
    (hnd i hi i hi (le_refl i)) hm

/-! ### The greedy loop on identical descriptors -/

/-- With pairwise-distinct non-degenerate shapes, each greedy step on
(A, A) keeps the diagonal choice, and the loop returns total distance
zero with the identity matching. -/
lemma greedyFold_self {A : FHD} (hWF : A.WF) (hnd : A.Nondeg)
    {metric : String} (hm : metric ∈ hdist.implementedMetrics)
    (hds : distinctShapes A metric) :
    greedyFold A A metric = (some 0, List.range A.N, []) := by
  have key : ∀ n ≤ A.N,
      (List.range n).foldl
        (fun st i =>
          let c := greedyStep A A metric i st.2.2
          (pyAdd st.1 c.1, st.2.1 ++ [c.2], st.2.2.erase c.2))
        (some 0, [], List.range A.N) =
      (some 0, List.range n, (List.range A.N).drop n) := by
    intro n
    induction n with
    | zero => intro _; simp
    | succ n ih =>
      intro hn
      have hnN : n < A.N := by omega
      rw [List.range_succ, List.foldl_append, ih (by omega), List.foldl_cons,
        List.foldl_nil]
      have hdrop := range_drop_cons hnN
      have hstep : greedyStep A A metric n ((List.range A.N).drop n) =
          (some 0, n) := by
        rw [greedyStep, hdrop, List.map_cons, bestChoice]
        rw [dmat_self_diag hWF hnd hm hnN]
        apply runBest_stay
        rintro y hy hcond
        rcases List.mem_map.1 hy with ⟨j, hj, rfl⟩
        rcases mem_range_drop.1 hj with ⟨hj1, hj2⟩
        rcases dmat_some_nonneg hWF hWF hnd hnd rfl hm hnN hj2
          with ⟨q, hq, hq0⟩
        have hqne : q ≠ 0 := by
          intro h0
          apply hds n hnN j hj2 (by omega)
          rw [hq, h0]
        rw [hq, pyLt_some_some, pyEq_some_some] at hcond
        rcases Bool.or_eq_true_iff.1 hcond with h | h
        · have := of_decide_eq_true h
          linarith
        · exact absurd (of_decide_eq_true h) hqne
      rw [hstep]
      simp only [pyAdd]
      rw [hdrop, List.erase_cons_head, zero_add, ← List.range_succ]
  have hkey := key A.N (le_refl A.N)
  have hdN : (List.range A.N).drop A.N = [] := by
    apply List.drop_eq_nil_of_le
    simp
  rw [greedyFold, hkey, hdN]

/-! ### The optimal search on identical descriptors -/

lemma permSum_self_diag {A : FHD} (hWF : A.WF) (hnd : A.Nondeg)
    {metric : String} (hm : metric ∈ hdist.implementedMetrics) :
    permSum (dmat A A metric) (List.range A.N) = some 0 := by
  have h : ∀ ij ∈ (List.range A.N).enum,
      dmat A A metric ij.1 ij.2 = some ((fun _ _ => (0 : ℚ)) ij.1 ij.2) := by
    intro ij hij
    rcases mem_enum_iff_nat.1 hij with ⟨h, hval⟩
    have hlen : ij.1 < A.N := by simpa using h
    have h2 : ij.2 = ij.1 := by
      rw [← hval, List.get_eq_getElem]
      simp
    rw [h2]
    exact dmat_self_diag hWF hnd hm hlen
  rw [permSum_of_some (dmat A A metric) (List.range A.N) (fun _ _ => (0 : ℚ)) h,
    Option.some.injEq]
  apply List.sum_eq_zero
  intro q hq
  rcases List.mem_map.1 hq with ⟨ij, _, h3⟩
  exact h3.symm

/-- A non-identity permutation of range N has strictly positive total
distance against the self matrix with pairwise-distinct shapes. -/
lemma permSum_self_pos {A : FHD} (hWF : A.WF) (hnd : A.Nondeg)
    {metric : String} (hm : metric ∈ hdist.implementedMetrics)
    (hds : distinctShapes A metric) {p : List ℕ}
    (hp : p.Perm (List.range A.N)) (hne : p ≠ List.range A.N) :
    ∃ s, permSum (dmat A A metric) p = some s ∧ 0 < s := by
  have hlen : p.length = A.N := by
    rw [hp.length_eq, List.length_range]
  have hmemN : ∀ x ∈ p, x < A.N := fun x hx =>
    List.mem_range.1 (hp.mem_iff.1 hx)
  have hentry : ∀ ij ∈ p.enum, ∃ q,
      dmat A A metric ij.1 ij.2 = some q ∧ 0 ≤ q := by
    intro ij hij
    rcases mem_enum_iff_nat.1 hij with ⟨h, hval⟩
    have h1 : ij.1 < A.N := by omega
    have h2 : ij.2 < A.N := by
      apply hmemN
      rw [← hval, List.get_eq_getElem]
      exact List.getElem_mem _
    exact dmat_some_nonneg hWF hWF hnd hnd rfl hm h1 h2
  have hsum := permSum_of_some (dmat A A metric) p
    (fun i j => (dmat A A metric i j).getD 0) ?_
  swap
  · intro ij hij
    rcases hentry ij hij with ⟨q, hq, _⟩
    show dmat A A metric ij.1 ij.2 = some ((dmat A A metric ij.1 ij.2).getD 0)
    rw [hq]
    rfl
  refine ⟨_, hsum, ?_⟩
  have hnonneg : ∀ x ∈ p.enum.map
      (fun ij => (dmat A A metric ij.1 ij.2).getD 0), 0 ≤ x := by
    intro x hx
    rcases List.mem_map.1 hx with ⟨ij, hij, rfl⟩
    rcases hentry ij hij with ⟨q, hq, hq0⟩
    rw [hq]
    exact hq0
  have hex : ∃ i < A.N, p.getD i 0 ≠ i := by
    by_contra hall
    push_neg at hall
    apply hne
    apply List.ext_getElem (by simpa using hlen)
    intro i h1 h2
    have hi : i < A.N := by omega
    have := hall i hi
    rw [List.getD_eq_getElem _ _ (by omega)] at this
    simpa using this
  rcases hex with ⟨i, hiN, hine⟩
  have hmem : (i, p.getD i 0) ∈ p.enum := mem_enum_of_lt (by omega)
  have hjN : p.getD i 0 < A.N := by
    apply hmemN
    rw [List.getD_eq_getElem _ _ (by omega)]
    exact List.getElem_mem _
  rcases dmat_some_nonneg hWF hWF hnd hnd rfl hm hiN hjN with ⟨q, hq, hq0⟩
  have hqpos : 0 < q := by
    rcases lt_or_eq_of_le hq0 with h | h
    · exact h
    · exfalso
      apply hds i hiN (p.getD i 0) hjN (fun he => hine he.symm)
      rw [hq, ← h]
  have helem : q ∈ p.enum.map (fun ij => (dmat A A metric ij.1 ij.2).getD 0) := by
    refine List.mem_map.2 ⟨(i, p.getD i 0), hmem, ?_⟩
    show (dmat A A metric i (p.getD i 0)).getD 0 = q
    rw [hq]
    rfl
  have := List.single_le_sum hnonneg q helem
  linarith

lemma optimalCore_self {A : FHD} (hWF : A.WF) (hnd : A.Nondeg)
    {metric : String} (hm : metric ∈ hdist.implementedMetrics)
    (hds : distinctShapes A metric) :
    optimalCore A.N (dmat A A metric) = (some 0, List.range A.N) := by
  obtain ⟨t, ht⟩ := permsLex_head (List.range A.N)
  rw [optimalCore, ht, List.map_cons, permSum_self_diag hWF hnd hm]
  apply runBest_stay
  rintro y hy hcond
  rcases List.mem_map.1 hy with ⟨p, hp, rfl⟩
  have hperm : p.Perm (List.range A.N) := by
    apply (mem_permsLex _ _).1
    rw [ht]
    exact List.mem_cons_of_mem _ hp
  by_cases hne : p = List.range A.N
  · rw [hne, permSum_self_diag hWF hnd hm]
  · exfalso
    rcases permSum_self_pos hWF hnd hm hds hperm hne with ⟨s, hs, hs0⟩
    rw [hs, pyLt_some_some, pyEq_some_some] at hcond
    rcases Bool.or_eq_true_iff.1 hcond with h | h
    · have := of_decide_eq_true h
      linarith
    · have := of_decide_eq_true h
      linarith

/-! ### The spatial and shape sums on identical descriptors -/

lemma spatialWith_self {A : FHD} (hWF : A.WF) (hnd : A.Nondeg)
    {metric : String} (hm : metric ∈ hdist.implementedMetrics) :
    spatialWith A A metric (List.range A.N) = some 0 := by
  rw [spatialWith]
  apply foldl_pyAdd_zero
  intro p hp
  rcases mem_pairList.1 hp with ⟨h1, h2⟩
  rw [getD_range (by omega), getD_range h2, if_pos (by omega : p.1 ≤ p.2)]
  exact hdist.hdistPure_self
    (hist_ne_nil hWF (by omega) h2 (by omega))
    (hnd p.1 (by omega) p.2 h2 (by omega)) hm

lemma defaultShape_self {A : FHD} (hWF : A.WF) (hnd : A.Nondeg)
    {metric : String} (hm : metric ∈ hdist.implementedMetrics) :
    defaultShape A A metric = some 0 := by
  rw [defaultShape]
  apply foldl_pyAdd_zero
  intro i hi
  exact dmat_self_diag hWF hnd hm (List.mem_range.1 hi)

lemma defaultSpatial_self {A : FHD} (hWF : A.WF) (hnd : A.Nondeg)
    {metric : String} (hm : metric ∈ hdist.implementedMetrics) :
    defaultSpatial A A metric = some 0 := by
  rw [defaultSpatial]
  apply foldl_pyAdd_zero
  intro p hp
  rcases mem_pairList.1 hp with ⟨h1, h2⟩
  exact hdist.hdistPure_self
    (hist_ne_nil hWF (by omega) h2 (by omega))
    (hnd p.1 (by omega) p.2 h2 (by omega)) hm

lemma greedyPick_self {A : FHD} (hWF : A.WF) (hnd : A.Nondeg)
    {metric : String} (hm : metric ∈ hdist.implementedMetrics)
    (hds : distinctShapes A metric) :
    greedyPick A A metric = (some 0, List.range A.N) := by
  rw [greedyPick, greedyFold_self hWF hnd hm hds]
  simp [pyLe]

end fhd

/-- On valid inputs (equal sizes, implemented metric, known strategy,
alpha in range) the descriptor distance is the strategy's shape and
spatial distances combined with weights alpha and 1 - alpha. -/
lemma fhd_distance_valid (A B : fhd.FHD) (metric mname : String) (α : ℚ)
    (hN : A.N = B.N) (hm : metric ∈ hdist.implementedMetrics)
    (hmn : mname ∈ fhd.matchingNames) (h0 : 0 ≤ α) (h1 : α ≤ 1) :
    fhd.distance A B metric mname (some α) =
      .ok (pyAdd (pyMul α (shapeOf A B metric mname))
                 (pyMul (1 - α) (spatialOf A B metric mname))) := by
  rw [fhd.distance]
  rw [if_neg (show ¬A.N ≠ B.N from fun h => h hN)]
  simp only [if_pos (show 0 ≤ α ∧ α ≤ 1 from ⟨h0, h1⟩)]
  fin_cases hmn
  · rw [if_neg (show ¬("default" ∉ fhd.matchingNames) by decide)]
    rw [if_neg (fun hcon => hcon.2 hm)]
    rw [if_pos rfl]
    rw [shapeOf, spatialOf, if_pos rfl, if_pos rfl]
  · rw [if_neg (show ¬("greedy" ∉ fhd.matchingNames) by decide)]
    rw [if_neg (fun hcon => hcon.2 hm)]
    rw [if_neg (show ¬("greedy" = "default") by decide), if_pos rfl]
    rw [shapeOf, spatialOf,
      if_neg (show ¬("greedy" = "default") by decide),
      if_neg (show ¬("greedy" = "default") by decide),
      if_pos rfl, if_pos rfl]
  · rw [if_neg (show ¬("optimal" ∉ fhd.matchingNames) by decide)]
    rw [if_neg (fun hcon => hcon.2 hm)]
    rw [if_neg (show ¬("optimal" = "default") by decide),
      if_neg (show ¬("optimal" = "greedy") by decide)]
    rw [shapeOf, spatialOf,
      if_neg (show ¬("optimal" = "default") by decide),
      if_neg (show ¬("optimal" = "default") by decide),
      if_neg (show ¬("optimal" = "greedy") by decide),
      if_neg (show ¬("optimal" = "greedy") by decide)]

/-- The per-strategy shape distance of a descriptor against itself is
zero (shapes pairwise distinct, histograms non-degenerate). -/
lemma shapeOf_self (A : fhd.FHD) (metric mname : String) (hWF : A.WF)
    (hnd : A.Nondeg) (hm : metric ∈ hdist.implementedMetrics)
    (hds : distinctShapes A metric) (hmn : mname ∈ fhd.matchingNames) :
    shapeOf A A metric mname = some 0 := by
  fin_cases hmn
  · rw [shapeOf, if_pos rfl]
    exact fhd.defaultShape_self hWF hnd hm
  · rw [shapeOf, if_neg (show ¬("greedy" = "default") by decide), if_pos rfl,
      fhd.greedyPick_self hWF hnd hm hds]
  · rw [shapeOf, if_neg (show ¬("optimal" = "default") by decide),
      if_neg (show ¬("optimal" = "greedy") by decide),
      fhd.optimalCore_self hWF hnd hm hds]

/-- The per-strategy spatial distance of a descriptor against itself is
zero: every strategy selects the identity matching. -/
lemma spatialOf_self (A : fhd.FHD) (metric mname : String) (hWF : A.WF)
    (hnd : A.Nondeg) (hm : metric ∈ hdist.implementedMetrics)
    (hds : distinctShapes A metric) (hmn : mname ∈ fhd.matchingNames) :
    spatialOf A A metric mname = some 0 := by
  fin_cases hmn
  · rw [spatialOf, if_pos rfl]
    exact fhd.defaultSpatial_self hWF hnd hm
  · rw [spatialOf, if_neg (show ¬("greedy" = "default") by decide), if_pos rfl,
      fhd.greedyPick_self hWF hnd hm hds]
    exact fhd.spatialWith_self hWF hnd hm
  · rw [spatialOf, if_neg (show ¬("optimal" = "default") by decide),
      if_neg (show ¬("optimal" = "greedy") by decide),
      fhd.optimalCore_self hWF hnd hm hds]
    exact fhd.spatialWith_self hWF hnd hm

/-! ## Claim C3: overall_distance(A, A) -/

/-- C3 counterexample: dupShapes has two identical (non-degenerate)
shape histograms.  Optimal matching finds both permutations at total
shape distance 0 and the dict tie-break keeps the last one, the swap;
the swap forces the rotated spatial comparison, which is non-zero, so
overall_distance(A, A, L1, optimal, 1/2) is 1, not 0. -/
theorem C3_counterexample :
    fhd.distance dupShapes dupShapes "L1" "optimal" (some (1 / 2)) =
      .ok (some 1) ∧
    (Except.ok (some 1) : Except Err (Option ℚ)) ≠ .ok (some 0) := by
  constructor
  · have e0 : hdist.hdistPure [0, 1] [0, 1] "L1" = some 0 := by
      norm_num [hdist.hdistPure, hdist.metricVal, hdist.normalizedHist,
        hdist.listMax, hdist.listMin, hdist.l1dist, hdist.metricsL1]
    have e1 : hdist.hdistPure [0, 1] [1, 0] "L1" = some 2 := by
      norm_num [hdist.hdistPure, hdist.metricVal, hdist.normalizedHist,
        hdist.listMax, hdist.listMin, hdist.l1dist, hdist.metricsL1]
    have e2 : fhd.optimalCore 2 (fhd.dmat dupShapes dupShapes "L1") =
        (some 0, [1, 0]) := by
      norm_num [fhd.optimalCore, fhd.permsLex, fhd.permsAux, fhd.permSum,
        fhd.runBest, fhd.bestChoice, fhd.dmat, dupShapes, e0, List.enum,
        List.range_succ, pyAdd, pyLt, pyEq]
    have e3 : fhd.spatialWith dupShapes dupShapes "L1" [1, 0] = some 2 := by
      have hroll : fhd.npRoll [0, 1] 1 = [1, 0] := by
        norm_num [fhd.npRoll]
      norm_num [fhd.spatialWith, fhd.pairList, List.range_succ, dupShapes,
        hroll, e1, pyAdd]
    rw [fhd_distance_valid dupShapes dupShapes "L1" "optimal" (1 / 2) rfl
      (by decide) (by decide) (by norm_num) (by norm_num)]
    rw [shapeOf, spatialOf,
      if_neg (show ¬("optimal" = "default") by decide),
      if_neg (show ¬("optimal" = "default") by decide),
      if_neg (show ¬("optimal" = "greedy") by decide),
      if_neg (show ¬("optimal" = "greedy") by decide)]
    have hN : dupShapes.N = 2 := rfl
    rw [hN, e2]
    rw [e3]
    norm_num [pyAdd, pyMul]
  · intro h
    rw [Except.ok.injEq, Option.some.injEq] at h
    norm_num at h

/-- C3 (amended): for a well-formed descriptor whose histograms are
non-degenerate and whose shape histograms are pairwise at non-zero
distance, overall_distance(A, A, metric, strategy, alpha) is exactly 0
for every implemented metric, every strategy, and every alpha in [0,1].
Identical shapes are excluded: the last-write-wins tie-break can select
a non-identity matching whose rotated spatial comparisons are non-zero,
and degenerate histograms make the result NaN. -/
theorem C3_theorem (A : fhd.FHD) (metric mname : String) (α : ℚ)
    (hWF : A.WF) (hnd : A.Nondeg) (hm : metric ∈ hdist.implementedMetrics)
    (hds : distinctShapes A metric) (hmn : mname ∈ fhd.matchingNames)
    (h0 : 0 ≤ α) (h1 : α ≤ 1) :
    fhd.distance A A metric mname (some α) = .ok (some 0) := by
  rw [fhd_distance_valid A A metric mname α rfl hm hmn h0 h1,
    shapeOf_self A metric mname hWF hnd hm hds hmn,
    spatialOf_self A metric mname hWF hnd hm hds hmn]
  simp [pyAdd, pyMul]

/-- C3 witness. -/
theorem C3_witness :
    fhd.distance distinct2 distinct2 "L1" "greedy" (some (1 / 2)) =
      .ok (some 0) :=
  C3_theorem distinct2 "L1" "greedy" (1 / 2)
    (by refine ⟨by decide, by decide, ?_⟩
        intro i hi j hj hij
        have hi2 : i < 2 := hi
        have hj2 : j < 2 := hj
        interval_cases i <;> interval_cases j <;> rfl)
    (by intro i hi j hj hij
        have hi2 : i < 2 := hi
        have hj2 : j < 2 := hj
        interval_cases i <;> interval_cases j <;>
          norm_num [distinct2, hdist.listMax, hdist.listMin])
    (by decide)
    (by intro i hi j hj hij
        have hi2 : i < 2 := hi
        have hj2 : j < 2 := hj
        interval_cases i <;> interval_cases j <;>
          first
          | exact absurd rfl hij
          | norm_num [fhd.dmat, distinct2, hdist.hdistPure, hdist.metricVal,
              hdist.normalizedHist, hdist.listMax, hdist.listMin, hdist.l1dist,
              hdist.metricsL1] )
    (by decide) (by norm_num) (by norm_num)

/-! ## Claim C1: the cross-matching spatial re-indexing rule -/

/-- The engine's spatial accumulation under a matching list is exactly
the sum of the spec-side swap-and-rotate terms. -/
lemma spatialWith_eq_spec (A B : fhd.FHD) (metric : String) (m : List ℕ) :
    fhd.spatialWith A B metric m =
      specSpatialSum A B metric (fun i => m.getD i 0) := rfl

/-- C1: for the matching produced by the greedy or the optimal strategy,
each spatial term for an A-pair (i, j), i < j, compares A[i,j] with
B[m i, m j] when m i <= m j and with B[m j, m i] circularly rotated by
num_dirs // 2 buckets when m i > m j; the engine result is the weighted
combination of the shape distance and the sum of exactly these terms.
The well-formedness and equal direction-count hypotheses confine the
statement to the pairs on which hdist.distance's own size validation
passes, so the source computes values rather than raising. -/
theorem C1_theorem (A B : fhd.FHD) (metric : String) (α : ℚ)
    (hN : A.N = B.N) (hWFA : A.WF) (hWFB : B.WF)
    (hD : A.num_dirs = B.num_dirs) (hm : metric ∈ hdist.implementedMetrics)
    (h0 : 0 ≤ α) (h1 : α ≤ 1) :
    fhd.distance A B metric "greedy" (some α) =
      .ok (pyAdd (pyMul α (fhd.greedyPick A B metric).1)
        (pyMul (1 - α) (specSpatialSum A B metric
          (fun i => (fhd.greedyPick A B metric).2.getD i 0)))) ∧
    fhd.distance A B metric "optimal" (some α) =
      .ok (pyAdd (pyMul α (fhd.optimalCore A.N (fhd.dmat A B metric)).1)
        (pyMul (1 - α) (specSpatialSum A B metric
          (fun i => (fhd.optimalCore A.N (fhd.dmat A B metric)).2.getD i 0)))) := by
  constructor
  · rw [fhd_distance_valid A B metric "greedy" α hN hm (by decide) h0 h1]
    rw [shapeOf, spatialOf,
      if_neg (show ¬("greedy" = "default") by decide),
      if_neg (show ¬("greedy" = "default") by decide),
      if_pos rfl, if_pos rfl, spatialWith_eq_spec]
  · rw [fhd_distance_valid A B metric "optimal" α hN hm (by decide) h0 h1]
    rw [shapeOf, spatialOf,
      if_neg (show ¬("optimal" = "default") by decide),
      if_neg (show ¬("optimal" = "default") by decide),
      if_neg (show ¬("optimal" = "greedy") by decide),
      if_neg (show ¬("optimal" = "greedy") by decide), spatialWith_eq_spec]

/-- C1 witness. -/
theorem C1_witness :
    fhd.distance distinct2 distinct2b "L1" "greedy" (some (1 / 2)) =
      .ok (pyAdd (pyMul (1 / 2) (fhd.greedyPick distinct2 distinct2b "L1").1)
        (pyMul (1 - 1 / 2) (specSpatialSum distinct2 distinct2b "L1"
          (fun i => (fhd.greedyPick distinct2 distinct2b "L1").2.getD i 0)))) :=
  (C1_theorem distinct2 distinct2b "L1" (1 / 2) rfl (by decide) (by decide)
    rfl (by decide) (by norm_num) (by norm_num)).1

/-! ## Claim C5: the weighted combination and the alpha contract -/

/-- C5: for well-formed descriptors of equal layer and direction counts
(the domain on which hdist.distance's size validation passes, so the
source returns values rather than raising), with an implemented metric
and a known strategy: a provided alpha outside [0, 1] fails with
InvalidInput; a valid alpha yields alpha * shape + (1 - alpha) * spatial
for the strategy's shape and spatial distances; an omitted alpha
defaults to 1 - 2/(N + 1). -/
theorem C5_theorem (A B : fhd.FHD) (metric mname : String)
    (hN : A.N = B.N) (hWFA : A.WF) (hWFB : B.WF)
    (hD : A.num_dirs = B.num_dirs) (hm : metric ∈ hdist.implementedMetrics)
    (hmn : mname ∈ fhd.matchingNames) :
    (∀ α : ℚ, ¬(0 ≤ α ∧ α ≤ 1) →
      fhd.distance A B metric mname (some α) = .error .invalidInput) ∧
    (∀ α : ℚ, 0 ≤ α → α ≤ 1 →
      fhd.distance A B metric mname (some α) =
        .ok (pyAdd (pyMul α (shapeOf A B metric mname))
                   (pyMul (1 - α) (spatialOf A B metric mname)))) ∧
    (fhd.distance A B metric mname none =
      .ok (pyAdd (pyMul (1 - 2 / ((A.N : ℚ) + 1)) (shapeOf A B metric mname))
                 (pyMul (1 - (1 - 2 / ((A.N : ℚ) + 1)))
                   (spatialOf A B metric mname)))) := by
  refine ⟨?_, ?_, ?_⟩
  · intro α hbad
    rw [fhd.distance, if_neg (fun h => h hN)]
    simp only [if_neg hbad]
  · intro α h0 h1
    exact fhd_distance_valid A B metric mname α hN hm hmn h0 h1
  · rw [fhd.distance, if_neg (fun h => h hN)]
    simp only []
    fin_cases hmn
    · rw [if_neg (show ¬("default" ∉ fhd.matchingNames) by decide)]
      rw [if_neg (fun hcon => hcon.2 hm)]
      rw [if_pos rfl]
      rw [shapeOf, spatialOf, if_pos rfl, if_pos rfl]
    · rw [if_neg (show ¬("greedy" ∉ fhd.matchingNames) by decide)]
      rw [if_neg (fun hcon => hcon.2 hm)]
      rw [if_neg (show ¬("greedy" = "default") by decide), if_pos rfl]
      rw [shapeOf, spatialOf,
        if_neg (show ¬("greedy" = "default") by decide),
        if_neg (show ¬("greedy" = "default") by decide),
        if_pos rfl, if_pos rfl]
    · rw [if_neg (show ¬("optimal" ∉ fhd.matchingNames) by decide)]
      rw [if_neg (fun hcon => hcon.2 hm)]
      rw [if_neg (show ¬("optimal" = "default") by decide),
        if_neg (show ¬("optimal" = "greedy") by decide)]
      rw [shapeOf, spatialOf,
        if_neg (show ¬("optimal" = "default") by decide),
        if_neg (show ¬("optimal" = "default") by decide),
        if_neg (show ¬("optimal" = "greedy") by decide),
        if_neg (show ¬("optimal" = "greedy") by decide)]

/-- C5 witness. -/
theorem C5_witness :
    fhd.distance distinct2 distinct2b "L1" "default" (some 2) =
      .error .invalidInput :=
  (C5_theorem distinct2 distinct2b "L1" "default" rfl (by decide) (by decide)
    rfl (by decide) (by decide)).1 2 (by norm_num)

/-! ## Claim C10: serialization round trip -/

namespace fhd

lemma rowsFrom_cons {N r : ℕ} (f : ℕ → ℕ → List ℚ) (h : r < N) :
    rowsFrom f N r =
      ((List.range N).drop r).map (f r) ++ rowsFrom f N (r + 1) := by
  rw [rowsFrom, rowsFrom, range_drop_cons h, List.flatMap_cons,
    range_drop_cons h]

lemma rowsFrom_getD (f : ℕ → ℕ → List ℚ) (N : ℕ) :
    ∀ (k r i j : ℕ), i = r + k → i ≤ j → j < N →
      (rowsFrom f N r).getD
        ((((List.range i).drop r).map (fun t => N - t)).sum + (j - i)) [] =
      f i j := by
  intro k
  induction k with
  | zero =>
    intro r i j hik hij hjN
    have hri : r = i := by omega
    subst hri
    have hrN : r < N := by omega
    rw [List.drop_eq_nil_of_le (by simp), List.map_nil, List.sum_nil, zero_add]
    rw [rowsFrom_cons f hrN]
    have hblen : (((List.range N).drop r).map (f r)).length = N - r := by
      simp
    rw [List.getD_append _ _ _ _ (by omega : j - r < (((List.range N).drop r).map (f r)).length)]
    rw [List.getD_eq_getElem _ _ (by simp; omega)]
    rw [List.getElem_map, List.getElem_drop, List.getElem_range]
    congr 1
    omega
  | succ k ih =>
    intro r i j hik hij hjN
    have hrN : r < N := by omega
    have hri : r < i := by omega
    rw [rowsFrom_cons f hrN]
    rw [range_drop_cons hri, List.map_cons, List.sum_cons, add_assoc]
    have hblen : (((List.range N).drop r).map (f r)).length = N - r := by
      simp
    rw [List.getD_append_right _ _ _ _ (by simp : (((List.range N).drop r).map (f r)).length ≤ N - r + ((((List.range i).drop (r + 1)).map (fun t => N - t)).sum + (j - i)))]
    rw [hblen, show N - r + ((((List.range i).drop (r + 1)).map (fun t => N - t)).sum + (j - i)) - (N - r) = (((List.range i).drop (r + 1)).map (fun t => N - t)).sum + (j - i) by omega]
    exact ih (r + 1) i j (by omega) hij hjN

lemma dump_headD {A : FHD} (h : 0 < A.N) :
    (FHD.dump A).headD [] = A.fhistograms 0 0 := by
  rw [FHD.dump, rowsFrom_cons _ h, range_drop_cons h, List.map_cons]
  rfl

end fhd

/-- C10: dumping a well-formed descriptor and loading it back with the
original N, shape_force and spatial_force reproduces N, num_dirs, both
forces, and every upper-triangular histogram exactly. -/
theorem C10_theorem (A : fhd.FHD) (hWF : A.WF) :
    (fhd.FHD.load (fhd.FHD.dump A) A.N A.shape_force A.spatial_force).N = A.N ∧
    (fhd.FHD.load (fhd.FHD.dump A) A.N A.shape_force A.spatial_force).num_dirs =
      A.num_dirs ∧
    (fhd.FHD.load (fhd.FHD.dump A) A.N A.shape_force A.spatial_force).shape_force =
      A.shape_force ∧
    (fhd.FHD.load (fhd.FHD.dump A) A.N A.shape_force A.spatial_force).spatial_force =
      A.spatial_force ∧
    ∀ i < A.N, ∀ j < A.N, i ≤ j →
      (fhd.FHD.load (fhd.FHD.dump A) A.N A.shape_force
        A.spatial_force).fhistograms i j = A.fhistograms i j := by
  refine ⟨rfl, ?_, rfl, rfl, ?_⟩
  · show ((fhd.FHD.dump A).headD []).length = A.num_dirs
    rw [fhd.dump_headD hWF.1]
    exact hWF.2.2 0 hWF.1 0 hWF.1 (le_refl 0)
  · intro i hi j hj hij
    show (if i ≤ j ∧ j < A.N then
        (fhd.FHD.dump A).getD (fhd.triuPos A.N i j) [] else []) =
      A.fhistograms i j
    rw [if_pos ⟨hij, hj⟩, fhd.triuPos, fhd.FHD.dump]
    have := fhd.rowsFrom_getD A.fhistograms A.N i 0 i j (by omega) hij hj
    rw [List.drop_zero] at this
    exact this

/-- C10 witness. -/
theorem C10_witness :
    (fhd.FHD.load (fhd.FHD.dump distinct2) distinct2.N distinct2.shape_force
      distinct2.spatial_force).fhistograms 0 1 = distinct2.fhistograms 0 1 :=
  (C10_theorem distinct2 (by decide)).2.2.2.2 0 (by decide) 1 (by decide)
    (by decide)

/-! ## Claim C2: behaviour of the exhaustive permutation search -/

namespace fhd

/-- Against well-formed non-degenerate descriptors of equal sizes, the
total distance of any permutation of range N is a defined value. -/
lemma permSum_dmat_some {A B : FHD} (hWFA : A.WF) (hWFB : B.WF)
    (hndA : A.Nondeg) (hndB : B.Nondeg) (hN : A.N = B.N)
    (hD : A.num_dirs = B.num_dirs) {metric : String}
    (hm : metric ∈ hdist.implementedMetrics) {p : List ℕ}
    (hp : p.Perm (List.range A.N)) :
    permSum (dmat A B metric) p =
      some ((p.enum.map
        (fun ij => (dmat A B metric ij.1 ij.2).getD 0)).sum) := by
  have hlen : p.length = A.N := by
    rw [hp.length_eq, List.length_range]
  have hmemN : ∀ x ∈ p, x < A.N := fun x hx =>
    List.mem_range.1 (hp.mem_iff.1 hx)
  refine permSum_of_some (dmat A B metric) p
    (fun i j => (dmat A B metric i j).getD 0) ?_
  intro ij hij
  rcases mem_enum_iff_nat.1 hij with ⟨h, hval⟩
  have h1 : ij.1 < A.N := by omega
  have h2 : ij.2 < B.N := by
    rw [← hN]
    apply hmemN
    rw [← hval, List.get_eq_getElem]
    exact List.getElem_mem _
  rcases dmat_some_nonneg hWFA hWFB hndA hndB hD hm h1 h2 with ⟨q, hq, _⟩
  show dmat A B metric ij.1 ij.2 = some ((dmat A B metric ij.1 ij.2).getD 0)
  rw [hq]
  rfl

/-- The minimal key returned by the exhaustive search is below the total
of every permutation. -/
lemma optimalCore_min {A B : FHD} (hWFA : A.WF) (hWFB : B.WF)
    (hndA : A.Nondeg) (hndB : B.Nondeg) (hN : A.N = B.N)
    (hD : A.num_dirs = B.num_dirs) {metric : String}
    (hm : metric ∈ hdist.implementedMetrics) :
    ∀ p, p.Perm (List.range A.N) →
      pyLe (optimalCore A.N (dmat A B metric)).1
        (permSum (dmat A B metric) p) = true := by
  intro p hp
  obtain ⟨t, ht⟩ := permsLex_head (List.range A.N)
  have hperm_t : ∀ q ∈ t, q.Perm (List.range A.N) := by
    intro q hq
    apply (mem_permsLex _ _).1
    rw [ht]
    exact List.mem_cons_of_mem _ hq
  rw [optimalCore, ht, List.map_cons]
  have hsome : ∀ y ∈ t.map (fun q => (permSum (dmat A B metric) q, q)),
      ∃ s, y.1 = some s := by
    rintro y hy
    rcases List.mem_map.1 hy with ⟨q, hq, rfl⟩
    exact ⟨_, permSum_dmat_some hWFA hWFB hndA hndB hN hD hm (hperm_t q hq)⟩
  rcases runBest_min (t.map (fun q => (permSum (dmat A B metric) q, q)))
      (permSum (dmat A B metric) (List.range A.N), List.range A.N) _
      (permSum_dmat_some hWFA hWFB hndA hndB hN hD hm (List.Perm.refl _)) hsome
    with ⟨r, hr, hr0, hrall⟩
  rw [hr]
  have hpmem : p ∈ permsLex (List.range A.N) := (mem_permsLex _ _).2 hp
  rw [ht] at hpmem
  rcases List.mem_cons.1 hpmem with hcase | hcase
  · subst hcase
    rw [permSum_dmat_some hWFA hWFB hndA hndB hN hD hm hp, pyLe_some_some]
    simpa using hr0
  · rcases permSum_dmat_some hWFA hWFB hndA hndB hN hD hm
      (hperm_t p hcase) with hps
    rw [hps, pyLe_some_some]
    have := hrall (permSum (dmat A B metric) p, p)
      (List.mem_map.2 ⟨p, hcase, rfl⟩) _ hps
    simpa using this

end fhd

/-- C2 counterexample: on a descriptor with two identical shapes, both
permutations of range 2 achieve the minimal total 0; the identity [0, 1]
is enumerated first, yet the search returns [1, 0], the last minimum
encountered, because equal keys overwrite in the matchings dict. -/
theorem C2_counterexample :
    fhd.optimal_shape_matching dupShapes dupShapes "L1" =
      .ok (some 0, [1, 0]) ∧
    fhd.permsLex (List.range 2) = [[0, 1], [1, 0]] ∧
    fhd.permSum (fhd.dmat dupShapes dupShapes "L1") [0, 1] = some 0 ∧
    ([1, 0] : List ℕ) ≠ [0, 1] := by
  have e0 : hdist.hdistPure [0, 1] [0, 1] "L1" = some 0 := by
    norm_num [hdist.hdistPure, hdist.metricVal, hdist.normalizedHist,
      hdist.listMax, hdist.listMin, hdist.l1dist, hdist.metricsL1]
  refine ⟨?_, by decide, ?_, by decide⟩
  · rw [fhd.optimal_shape_matching, if_neg (by decide)]
    have e2 : fhd.optimalCore dupShapes.N (fhd.dmat dupShapes dupShapes "L1") =
        (some 0, [1, 0]) := by
      norm_num [fhd.optimalCore, fhd.permsLex, fhd.permsAux, fhd.permSum,
        fhd.runBest, fhd.bestChoice, fhd.dmat, dupShapes, e0, List.enum,
        List.range_succ, pyAdd, pyLt, pyEq]
    rw [e2]
  · norm_num [fhd.permSum, fhd.dmat, dupShapes, e0, List.enum, pyAdd]

/-- C2 (amended): the exhaustive strategy enumerates every permutation
of range N (completeness of the enumeration), returns a permutation
achieving the minimal total shape distance, and among permutations of
equal minimal total it returns the LAST one in enumeration order (later
permutations with an equal float total overwrite earlier ones in the
matchings dict), not the first. -/
theorem C2_theorem (A B : fhd.FHD) (metric : String) (hWFA : A.WF)
    (hWFB : B.WF) (hndA : A.Nondeg) (hndB : B.Nondeg) (hN : A.N = B.N)
    (hD : A.num_dirs = B.num_dirs) (hm : metric ∈ hdist.implementedMetrics) :
    (fhd.optimal_shape_matching A B metric =
      .ok (fhd.optimalCore A.N (fhd.dmat A B metric))) ∧
    (∀ p, p.Perm (List.range A.N) → p ∈ fhd.permsLex (List.range A.N)) ∧
    (fhd.optimalCore A.N (fhd.dmat A B metric)).2.Perm (List.range A.N) ∧
    fhd.permSum (fhd.dmat A B metric)
        (fhd.optimalCore A.N (fhd.dmat A B metric)).2 =
      (fhd.optimalCore A.N (fhd.dmat A B metric)).1 ∧
    (∀ p, p.Perm (List.range A.N) →
      pyLe (fhd.optimalCore A.N (fhd.dmat A B metric)).1
        (fhd.permSum (fhd.dmat A B metric) p) = true) ∧
    fhd.optimalCore A.N (fhd.dmat A B metric) =
      (((fhd.permsLex (List.range A.N)).map
          (fun p => (fhd.permSum (fhd.dmat A B metric) p, p))).filter
        (fun y => pyEq y.1 (fhd.optimalCore A.N (fhd.dmat A B metric)).1)).getLastD
        (fhd.permSum (fhd.dmat A B metric) (List.range A.N),
          List.range A.N) := by
  obtain ⟨t, ht⟩ := fhd.permsLex_head (List.range A.N)
  have hperm_t : ∀ q ∈ t, q.Perm (List.range A.N) := by
    intro q hq
    apply (fhd.mem_permsLex _ _).1
    rw [ht]
    exact List.mem_cons_of_mem _ hq
  have hsome : ∀ y ∈ t.map (fun q => (fhd.permSum (fhd.dmat A B metric) q, q)),
      ∃ s, y.1 = some s := by
    rintro y hy
    rcases List.mem_map.1 hy with ⟨q, hq, rfl⟩
    exact ⟨_, fhd.permSum_dmat_some hWFA hWFB hndA hndB hN hD hm (hperm_t q hq)⟩
  have hx0 := fhd.permSum_dmat_some hWFA hWFB hndA hndB hN hD hm
    (List.Perm.refl (List.range A.N))
  have hcore : fhd.optimalCore A.N (fhd.dmat A B metric) =
      fhd.runBest (fhd.permSum (fhd.dmat A B metric) (List.range A.N),
        List.range A.N)
        (t.map (fun q => (fhd.permSum (fhd.dmat A B metric) q, q))) := by
    rw [fhd.optimalCore, ht, List.map_cons]
  refine ⟨?_, ?_, ?_, ?_, ?_, ?_⟩
  · rw [fhd.optimal_shape_matching, if_neg (fun h => h hN)]
  · intro p hp
    exact (fhd.mem_permsLex _ _).2 hp
  · have hmem := fhd.runBest_mem
      (fhd.permSum (fhd.dmat A B metric) (List.range A.N), List.range A.N)
      (t.map (fun q => (fhd.permSum (fhd.dmat A B metric) q, q)))
    rw [← hcore] at hmem
    rcases List.mem_cons.1 hmem with hcase | hcase
    · rw [hcase]
    · rcases List.mem_map.1 hcase with ⟨q, hq, heq⟩
      rw [← heq]
      exact hperm_t q hq
  · have hmem := fhd.runBest_mem
      (fhd.permSum (fhd.dmat A B metric) (List.range A.N), List.range A.N)
      (t.map (fun q => (fhd.permSum (fhd.dmat A B metric) q, q)))
    rw [← hcore] at hmem
    rcases List.mem_cons.1 hmem with hcase | hcase
    · rw [hcase]
    · rcases List.mem_map.1 hcase with ⟨q, hq, heq⟩
      rw [← heq]
  · exact fhd.optimalCore_min hWFA hWFB hndA hndB hN hD hm
  · have hlast := fhd.runBest_lastAchiever
      (t.map (fun q => (fhd.permSum (fhd.dmat A B metric) q, q)))
      (fhd.permSum (fhd.dmat A B metric) (List.range A.N), List.range A.N)
      _ hx0 hsome
    rw [← hcore] at hlast
    rw [hcore, ht, List.map_cons, ← hcore]
    exact hlast

/-- C2 witness. -/
theorem C2_witness :
    fhd.optimal_shape_matching distinct2 distinct2b "L1" =
      .ok (fhd.optimalCore distinct2.N (fhd.dmat distinct2 distinct2b "L1")) :=
  (C2_theorem distinct2 distinct2b "L1"
    (by decide) (by decide)
    (by intro i hi j hj hij
        have hi2 : i < 2 := hi
        have hj2 : j < 2 := hj
        interval_cases i <;> interval_cases j <;>
          norm_num [distinct2, hdist.listMax, hdist.listMin])
    (by intro i hi j hj hij
        have hi2 : i < 2 := hi
        have hj2 : j < 2 := hj
        interval_cases i <;> interval_cases j <;>
          norm_num [distinct2b, hdist.listMax, hdist.listMin])
    rfl rfl (by decide)).1

/-! ## Claim C4: optimal versus greedy -/

namespace fhd

lemma greedyStep_mem (A B : FHD) (metric : String) (i : ℕ) (cs : List ℕ)
    (h : cs ≠ []) :
    greedyStep A B metric i cs ∈ cs.map (fun j => (dmat A B metric i j, j)) := by
  match cs, h with
  | c0 :: rest, _ =>
    rw [greedyStep, List.map_cons, bestChoice]
    exact runBest_mem _ _

/-- The greedy loop returns the total distance of the matching it
builds, and that matching is a permutation of range N. -/
lemma greedyFold_spec (A B : FHD) (metric : String) (hN : A.N = B.N) :
    ∃ ms, greedyFold A B metric = (permSum (dmat A B metric) ms, ms, []) ∧
      ms.Perm (List.range A.N) := by
  have key : ∀ n ≤ A.N, ∃ ms cs,
      (List.range n).foldl
        (fun st i =>
          let c := greedyStep A B metric i st.2.2
          (pyAdd st.1 c.1, st.2.1 ++ [c.2], st.2.2.erase c.2))
        (some 0, [], List.range A.N) =
        (permSum (dmat A B metric) ms, ms, cs) ∧
      ms.length = n ∧ (ms ++ cs).Perm (List.range A.N) := by
    intro n
    induction n with
    | zero =>
      intro _
      exact ⟨[], List.range A.N, rfl, rfl, List.Perm.refl _⟩
    | succ n ih =>
      intro hn
      rcases ih (by omega) with ⟨ms, cs, hstate, hlen, hperm⟩
      have hcs : cs ≠ [] := by
        intro hnil
        have := hperm.length_eq
        rw [hnil, List.append_nil, List.length_range] at this
        omega
      rcases List.mem_map.1 (greedyStep_mem A B metric n cs hcs)
        with ⟨j, hj, hstep⟩
      rw [List.range_succ, List.foldl_append, hstate, List.foldl_cons,
        List.foldl_nil]
      refine ⟨ms ++ [j], cs.erase j, ?_, by simp [hlen], ?_⟩
      · rw [← hstep]
        simp only []
        rw [permSum_concat, hlen]
      · have h1 : (j :: cs.erase j).Perm cs := (List.perm_cons_erase hj).symm
        have h2 : (ms ++ [j] ++ cs.erase j).Perm (ms ++ cs) := by
          rw [List.append_assoc]
          exact (h1.append_left ms).trans (List.Perm.refl _) |>.trans
            (List.Perm.refl _) |>.trans (List.Perm.refl _)
        exact h2.trans hperm
  rcases key A.N (le_refl A.N) with ⟨ms, cs, hstate, hlen, hperm⟩
  have hcs : cs = [] := by
    have := hperm.length_eq
    rw [List.length_append, List.length_range, hlen] at this
    exact List.length_eq_zero.1 (by omega)
  subst hcs
  rw [List.append_nil] at hperm
  exact ⟨ms, by rw [greedyFold, hstate], hperm⟩

lemma enum_concat (l : List ℕ) (x : ℕ) :
    (l ++ [x]).enum = l.enum ++ [(l.length, x)] := by
  rw [List.enum_eq_zip_range, List.enum_eq_zip_range, List.length_append,
    List.length_cons, List.length_nil]
  rw [show l.length + (0 + 1) = l.length + 1 by omega, List.range_succ,
    List.zip_append (by simp)]
  rfl

lemma enum_map_sum (l : List ℕ) (h : ℕ × ℕ → ℚ) :
    (l.enum.map h).sum =
      (Finset.range l.length).sum (fun i => h (i, l.getD i 0)) := by
  induction l using List.reverseRecOn with
  | nil => simp
  | append_singleton l x ih =>
    rw [enum_concat, List.map_append, List.sum_append, List.length_append,
      List.length_cons, List.length_nil,
      show l.length + (0 + 1) = l.length + 1 by omega,
      Finset.sum_range_succ]
    have hlast : (l ++ [x]).getD l.length 0 = x := by
      rw [List.getD_append_right _ _ _ _ (le_refl l.length)]
      simp
    have hinit : (Finset.range l.length).sum
        (fun i => h (i, (l ++ [x]).getD i 0)) =
        (Finset.range l.length).sum (fun i => h (i, l.getD i 0)) := by
      apply Finset.sum_congr rfl
      intro i hi
      rw [List.getD_append _ _ _ _ (Finset.mem_range.1 hi)]
    rw [hlast, hinit, ih]
    simp

/-- Reindexing a sum over positions of a permutation list into a sum
over its values, via the inverse assignment j to indexOf j. -/
lemma sum_reindex (N : ℕ) (ms : List ℕ) (hms : ms.Perm (List.range N))
    (g : ℕ → ℕ → ℚ) :
    (Finset.range N).sum (fun i => g (ms.getD i 0) i) =
      (Finset.range N).sum (fun j => g j (ms.indexOf j)) := by
  have hlen : ms.length = N := by
    rw [hms.length_eq, List.length_range]
  have hnodup : ms.Nodup := hms.symm.nodup (List.nodup_range N)
  have hmem : ∀ x, x ∈ ms ↔ x < N := by
    intro x
    rw [hms.mem_iff, List.mem_range]
  apply Finset.sum_nbij' (fun a => ms.getD a 0) (fun b => ms.indexOf b)
  · intro a ha
    rw [Finset.mem_range] at ha ⊢
    rw [← hmem, List.getD_eq_getElem _ _ (by omega)]
    exact List.getElem_mem _
  · intro b hb
    rw [Finset.mem_range] at hb ⊢
    rw [← hlen]
    exact List.indexOf_lt_length.2 ((hmem b).2 hb)
  · intro a ha
    rw [Finset.mem_range] at ha
    rw [List.getD_eq_getElem _ _ (by omega)]
    exact List.indexOf_getElem hnodup a (by omega)
  · intro b hb
    rw [Finset.mem_range] at hb
    have hblt : ms.indexOf b < ms.length :=
      List.indexOf_lt_length.2 ((hmem b).2 hb)
    rw [List.getD_eq_getElem _ _ hblt]
    exact List.getElem_indexOf hblt
  · intro a ha
    rw [Finset.mem_range] at ha
    congr 1
    rw [List.getD_eq_getElem _ _ (by omega)]
    exact (List.indexOf_getElem hnodup a (by omega)).symm

/-- The inverse assignment of a permutation of range N is again a
permutation of range N. -/
lemma inv_perm (N : ℕ) (ms : List ℕ) (hms : ms.Perm (List.range N)) :
    ((List.range N).map (fun j => ms.indexOf j)).Perm (List.range N) := by
  have hlen : ms.length = N := by
    rw [hms.length_eq, List.length_range]
  have hmem : ∀ x, x ∈ ms ↔ x < N := by
    intro x
    rw [hms.mem_iff, List.mem_range]
  have hnodup : ((List.range N).map (fun j => ms.indexOf j)).Nodup := by
    apply List.Nodup.map_on ?_ (List.nodup_range N)
    intro x hx y hy hxy
    have hxm : x ∈ ms := (hmem x).2 (List.mem_range.1 hx)
    have hym : y ∈ ms := (hmem y).2 (List.mem_range.1 hy)
    have h1 := List.getElem_indexOf (List.indexOf_lt_length.2 hxm)
    have h2 := List.getElem_indexOf (List.indexOf_lt_length.2 hym)
    rw [← h1, ← h2]
    congr 1
  have hsub : ((List.range N).map (fun j => ms.indexOf j)) ⊆ List.range N := by
    intro x hx
    rcases List.mem_map.1 hx with ⟨j, hj, rfl⟩
    rw [List.mem_range, ← hlen]
    exact List.indexOf_lt_length.2 ((hmem j).2 (List.mem_range.1 hj))
  apply List.Subperm.perm_of_length_le (List.subperm_of_subset hnodup hsub)
  simp

lemma dmat_comm (A B : FHD) (metric : String) (i j : ℕ) :
    dmat B A metric i j = dmat A B metric j i := by
  rw [dmat, dmat]
  exact hdist.hdistPure_comm _ _ _

/-- The total distance of the B-to-A greedy matching equals the total of
a permutation of the A-to-B matrix (the inverse permutation). -/
lemma permSum_transpose {A B : FHD} (hWFA : A.WF) (hWFB : B.WF)
    (hndA : A.Nondeg) (hndB : B.Nondeg) (hN : A.N = B.N)
    (hD : A.num_dirs = B.num_dirs) {metric : String}
    (hm : metric ∈ hdist.implementedMetrics) {ms : List ℕ}
    (hms : ms.Perm (List.range A.N)) :
    permSum (dmat A B metric)
        ((List.range A.N).map (fun j => ms.indexOf j)) =
      permSum (dmat B A metric) ms := by
  have hlen : ms.length = A.N := by
    rw [hms.length_eq, List.length_range]
  have hinv : ((List.range A.N).map (fun j => ms.indexOf j)).Perm
      (List.range A.N) := inv_perm A.N ms hms
  rw [permSum_dmat_some hWFA hWFB hndA hndB hN hD hm hinv]
  rw [permSum_dmat_some hWFB hWFA hndB hndA hN.symm hD.symm hm
    (by rw [← hN]; exact hms)]
  rw [Option.some.injEq]
  rw [enum_map_sum ms (fun ij => (dmat B A metric ij.1 ij.2).getD 0)]
  rw [enum_map_sum _ (fun ij => (dmat A B metric ij.1 ij.2).getD 0)]
  rw [hlen, List.length_map, List.length_range]
  have hgetD : ∀ i < A.N,
      ((List.range A.N).map (fun j => ms.indexOf j)).getD i 0 =
        ms.indexOf i := by
    intro i hi
    rw [List.getD_eq_getElem _ _ (by simp [hi])]
    simp
  rw [show (Finset.range A.N).sum (fun i =>
      (dmat A B metric i (((List.range A.N).map
        (fun j => ms.indexOf j)).getD i 0)).getD 0) =
    (Finset.range A.N).sum (fun j =>
      (dmat A B metric j (ms.indexOf j)).getD 0) from
    Finset.sum_congr rfl (fun i hi => by
      rw [hgetD i (Finset.mem_range.1 hi)])]
  rw [show (Finset.range A.N).sum (fun i =>
      (dmat B A metric i (ms.getD i 0)).getD 0) =
    (Finset.range A.N).sum (fun i =>
      (dmat A B metric (ms.getD i 0) i).getD 0) from
    Finset.sum_congr rfl (fun i _ => by rw [dmat_comm])]
  exact (sum_reindex A.N ms hms (fun x y => (dmat A B metric x y).getD 0)).symm

end fhd

/-- C4 counterexample: on a degenerate descriptor (a constant histogram)
every shape distance is NaN, so both the optimal total and the retained
greedy total are NaN, and the claimed inequality fails (NaN admits no
order). -/
theorem C4_counterexample :
    (fhd.optimalCore degen1.N (fhd.dmat degen1 degen1 "L1")).1 = none ∧
    (fhd.greedyPick degen1 degen1 "L1").1 = none ∧
    pyLe (fhd.optimalCore degen1.N (fhd.dmat degen1 degen1 "L1")).1
      (fhd.greedyPick degen1 degen1 "L1").1 = false := by
  have e0 : hdist.hdistPure [1, 1] [1, 1] "L1" = none := by
    norm_num [hdist.hdistPure, hdist.metricVal, hdist.normalizedHist,
      hdist.listMax, hdist.listMin, hdist.metricsL1]
  refine ⟨?_, ?_, ?_⟩
  · norm_num [fhd.optimalCore, fhd.permsLex, fhd.permsAux, fhd.permSum,
      fhd.runBest, fhd.bestChoice, fhd.dmat, degen1, e0, List.enum,
      List.range_succ, pyAdd]
  · norm_num [fhd.greedyPick, fhd.greedyFold, fhd.greedyStep,
      fhd.bestChoice, fhd.runBest, fhd.dmat, degen1, e0, List.range_succ,
      pyAdd, pyLe]
  · norm_num [fhd.optimalCore, fhd.greedyPick, fhd.greedyFold,
      fhd.greedyStep, fhd.permsLex, fhd.permsAux, fhd.permSum,
      fhd.runBest, fhd.bestChoice, fhd.dmat, degen1, e0, List.enum,
      List.range_succ, pyAdd, pyLe]

/-- C4 (amended): for well-formed descriptors with non-degenerate
histograms, equal layer counts and direction counts, and any implemented
metric, the shape distance found by the exhaustive search is at most the
shape distance retained by the greedy strategy (the smaller of its two
directed runs); degenerate histograms are excluded because they make
both totals NaN, which the float order does not relate. -/
theorem C4_theorem (A B : fhd.FHD) (metric : String) (hWFA : A.WF)
    (hWFB : B.WF) (hndA : A.Nondeg) (hndB : B.Nondeg) (hN : A.N = B.N)
    (hD : A.num_dirs = B.num_dirs) (hN6 : A.N ≤ 6)
    (hm : metric ∈ hdist.implementedMetrics) :
    pyLe (fhd.optimalCore A.N (fhd.dmat A B metric)).1
      (fhd.greedyPick A B metric).1 = true := by
  rcases fhd.greedyFold_spec A B metric hN with ⟨msAB, hAB, hpermAB⟩
  rcases fhd.greedyFold_spec B A metric hN.symm with ⟨msBA, hBA, hpermBA⟩
  have hminAB := fhd.optimalCore_min hWFA hWFB hndA hndB hN hD hm
    msAB hpermAB
  have hpermBA' : msBA.Perm (List.range A.N) := by
    rw [hN]
    exact hpermBA
  have htrans := fhd.permSum_transpose hWFA hWFB hndA hndB hN hD hm hpermBA'
  have hminBA := fhd.optimalCore_min hWFA hWFB hndA hndB hN hD hm
    ((List.range A.N).map (fun j => msBA.indexOf j))
    (fhd.inv_perm A.N msBA hpermBA')
  rw [htrans] at hminBA
  rw [fhd.greedyPick, hAB, hBA]
  simp only []
  by_cases hle : pyLe (fhd.permSum (fhd.dmat A B metric) msAB)
      (fhd.permSum (fhd.dmat B A metric) msBA) = true
  · rw [if_pos hle]
    exact hminAB
  · rw [if_neg hle]
    exact hminBA

/-- C4 witness. -/
theorem C4_witness :
    pyLe (fhd.optimalCore distinct2.N (fhd.dmat distinct2 distinct2b "L1")).1
      (fhd.greedyPick distinct2 distinct2b "L1").1 = true :=
  C4_theorem distinct2 distinct2b "L1" (by decide) (by decide)
    (by intro i hi j hj hij
        have hi2 : i < 2 := hi
        have hj2 : j < 2 := hj
        interval_cases i <;> interval_cases j <;>
          norm_num [distinct2, hdist.listMax, hdist.listMin])
    (by intro i hi j hj hij
        have hi2 : i < 2 := hi
        have hj2 : j < 2 := hj
        interval_cases i <;> interval_cases j <;>
          norm_num [distinct2b, hdist.listMax, hdist.listMin])
    rfl rfl (by decide) (by decide)

/-! ## Claim C6: reflexivity of the implemented metrics -/

/-- C6 counterexample: on the constant histogram, min-max normalization
divides by zero, so distance(a, a, L1) evaluates to NaN (modelled none),
not to 0. -/
theorem C6_counterexample :
    hdist.distance [1, 1] [1, 1] "L1" true = .ok none ∧
      (Except.ok none : Except Err (Option ℚ)) ≠ .ok (some 0) := by
  constructor
  · rfl
  · decide

/-- C6 (amended): for every non-empty histogram with at least two
distinct values, distance(a, a, metric) is exactly 0 for every
implemented metric; constant histograms are excluded because their
normalization produces NaN. -/
theorem C6_theorem (a : List ℚ) (ha : a ≠ [])
    (hnd : hdist.listMax a ≠ hdist.listMin a) (metric : String)
    (hm : metric ∈ hdist.implementedMetrics) :
    hdist.distance a a metric true = .ok (some 0) := by
  rw [hdist.distance_eq_hdistPure a a metric ha ha rfl hm,
    hdist.hdistPure_self ha hnd hm]

/-- C6 witness. -/
theorem C6_witness :
    hdist.distance [0, 1] [0, 1] "jaccard" true = .ok (some 0) :=
  C6_theorem [0, 1] (by decide) (by decide) "jaccard" (by decide)

/-! ## Claim C7: the CHI2 formula and its zero-denominator convention -/

/-- C7: on non-negative equal-length histograms the CHI2 distance is the
bucket-wise sum of (a_k - b_k)^2 / (a_k + b_k) with zero-denominator
buckets (necessarily 0/0) contributing exactly zero, and no NaN or
infinity escapes. -/
theorem C7_theorem (a b : List ℚ) (hna : ∀ x ∈ a, 0 ≤ x)
    (hnb : ∀ x ∈ b, 0 ≤ x) (ha : a ≠ []) (hlen : a.length = b.length) :
    hdist.distance a b "CHI2" false = .ok (some (chi2spec a b)) := by
  have hb : b ≠ [] := by
    intro h
    exact ha (List.length_eq_zero.1 (by rw [hlen, h]; rfl))
  rw [hdist.distance]
  rw [if_neg (by simp [ha, hb])]
  rw [if_neg (by simp [hlen])]
  simp only [Bool.false_eq_true, if_false]
  rw [if_neg (by decide : ("CHI2" : String) ∉ hdist.metricsL1),
    if_neg (by decide : ("CHI2" : String) ∉ hdist.metricsL2),
    if_pos (by decide : ("CHI2" : String) ∈ hdist.metricsCHI2)]
  rw [chi2spec, hdist.chi2dist]
  rw [hdist.chi2_filter_eq_spec (a.zip b)
    (fun p hp => ⟨hna _ (List.of_mem_zip hp).1, hnb _ (List.of_mem_zip hp).2⟩)]

/-- C7 witness. -/
theorem C7_witness :
    hdist.distance [0, 1, 2] [2, 0, 0] "CHI2" false =
      .ok (some (chi2spec [0, 1, 2] [2, 0, 0])) :=
  C7_theorem [0, 1, 2] [2, 0, 0] (by decide) (by decide) (by decide) (by decide)

/-! ## Claim C8: the failure modes of hdist.distance -/

/-- C8: hdist.distance fails with InvalidInput exactly on an empty
operand, a length mismatch, or an unrecognized metric name; it fails
with NotImplemented exactly when the inputs are valid and the metric is
CEMD; and whenever it returns a value the inputs were valid and the
metric implemented. -/
theorem C8_theorem (a b : List ℚ) (metric : String) (normalized : Bool) :
    (hdist.distance a b metric normalized = .error .invalidInput ↔
      a = [] ∨ b = [] ∨ a.length ≠ b.length ∨ metric ∉ hdist.allMetricNames) ∧
    (hdist.distance a b metric normalized = .error .notImplemented ↔
      a ≠ [] ∧ b ≠ [] ∧ a.length = b.length ∧ metric ∈ hdist.metricsCEMD) ∧
    (∀ v, hdist.distance a b metric normalized = .ok v →
      a ≠ [] ∧ b ≠ [] ∧ a.length = b.length ∧
        metric ∈ hdist.implementedMetrics) := by
  have hCE1 : metric ∈ hdist.metricsCEMD → metric ∉ hdist.metricsL1 := by
    intro h; fin_cases h <;> decide
  have hCE2 : metric ∈ hdist.metricsCEMD → metric ∉ hdist.metricsL2 := by
    intro h; fin_cases h <;> decide
  have hCE3 : metric ∈ hdist.metricsCEMD → metric ∉ hdist.metricsCHI2 := by
    intro h; fin_cases h <;> decide
  rw [hdist.distance]
  split_ifs with h1 h2 hL1 hL2 hC hCE hJ <;>
    simp_all [hdist.allMetricNames, hdist.implementedMetrics,
      List.length_eq_zero, List.mem_append] <;>
    tauto

/-! ## Claim C9: alias recognition is exact-string, not case-insensitive -/

/-- C9 counterexample: the lowercase alias l1 is not recognized (metric
lookup is by exact string), while L1 is, so recognition is not
case-insensitive. -/
theorem C9_counterexample :
    hdist.distance [0, 1] [1, 0] "l1" true = .error .invalidInput ∧
    hdist.distance [0, 1] [1, 0] "L1" true = .ok (some 2) ∧
    (Except.error Err.invalidInput : Except Err (Option ℚ)) ≠ .ok (some 2) := by
  refine ⟨rfl, ?_, by decide⟩
  norm_num [hdist.distance, hdist.normalizedHist, hdist.listMax, hdist.listMin,
    hdist.l1dist, hdist.metricsL1, hdist.metricsL2]

/-- C9 (amended): metric aliases are recognized by exact string match
(case-sensitive); every listed alias of a family computes exactly what
the canonical name computes. -/
theorem C9_theorem (a b : List ℚ) (normalized : Bool) :
    (∀ m ∈ hdist.metricsL1,
      hdist.distance a b m normalized = hdist.distance a b "L1" normalized) ∧
    (∀ m ∈ hdist.metricsL2,
      hdist.distance a b m normalized = hdist.distance a b "L2" normalized) ∧
    (∀ m ∈ hdist.metricsCHI2,
      hdist.distance a b m normalized = hdist.distance a b "CHI2" normalized) ∧
    (∀ m ∈ hdist.metricsCEMD,
      hdist.distance a b m normalized = hdist.distance a b "CEMD" normalized) ∧
    (∀ m ∈ hdist.metricsJaccard,
      hdist.distance a b m normalized =
        hdist.distance a b "jaccard" normalized) := by
  refine ⟨?_, ?_, ?_, ?_, ?_⟩ <;> intro m hm <;> fin_cases hm <;> rfl

/-- C9 witness. -/
theorem C9_witness :
    hdist.distance [0, 1] [1, 0] "man" true =
      hdist.distance [0, 1] [1, 0] "L1" true :=
  (C9_theorem [0, 1] [1, 0] true).1 "man" (by decide)

end Spec2Proof
